import Mathlib

/-!
# Verification of the A* pathfinder (`src/AStar/AStar.py`)

This file gives a shallow embedding of the A* search engine, the path
reconstructor `getPath`, and the three heuristics of the repository, and
proves or refutes the specification claims about them.

Modelling conventions:
* Vertices are identified by their unique `name` attribute (a `String`),
  as the source's contract requires unique names.
* Python `float` edge weights are modelled by `ℚ`; the `float('inf')`
  sentinel used for unreached `gScore`/`fScore` entries is modelled by
  `⊤` in `WithTop ℚ`.
* The unbounded `while` loop and the unbounded `while` in `getPath` are
  modelled with an explicit fuel parameter; `none` means the fuel ran out
  (or an exception was raised by a library lookup), `some` is a genuine
  return of the Python function.
* Dictionaries keyed by vertex objects are modelled as total functions
  from names; the source initialises `gScore`/`fScore` for every vertex
  of the graph, so lookups never fail there, and `cameFrom` lookups that
  would raise `KeyError` are modelled by `Option`.
* The order in which `igraph` lists the neighbours of a vertex is not
  semantically relevant to any claim below (it can only permute update
  order inside one expansion); we use the edge-list order.
-/

/-- An edge of the model graph: an unordered pair of vertex names
(stored as `src`/`dst`) together with its `weight` attribute. -/
structure Edge where
  src : String
  dst : String
  weight : ℚ
deriving DecidableEq, Repr

/-- The model of an `igraph` weighted undirected graph: the list of
vertex names, the list of edges, and the `lat`/`long` vertex attributes
used by the geodesic heuristic. -/
structure AGraph where
  vertexNames : List String
  edges : List Edge
  lat : String → ℚ
  long : String → ℚ

/-- Well-formedness of a graph, as the source's documented contract
requires: unique vertex names, edges between existing vertices, and
non-negative weights. -/
def WFGraph (g : AGraph) : Prop :=
  g.vertexNames.Nodup ∧
    ∀ e ∈ g.edges, e.src ∈ g.vertexNames ∧ e.dst ∈ g.vertexNames ∧ 0 ≤ e.weight

instance (g : AGraph) : Decidable (WFGraph g) := by
  unfold WFGraph; infer_instance

/-- `graph.get_eid(u, v)` followed by reading the `weight` attribute:
the weight of the first edge joining `u` and `v` in either orientation,
or `none` when no edge joins them (where `igraph` raises). -/
def getWeight (g : AGraph) (u v : String) : Option ℚ :=
  (g.edges.find? fun e => (e.src == u && e.dst == v) || (e.src == v && e.dst == u)).map
    Edge.weight

/-- `graph.neighbors(v)`: every vertex joined to `v` by an edge, one
occurrence per incident edge. -/
def neighborList (g : AGraph) (v : String) : List String :=
  g.edges.filterMap fun e =>
    if e.src = v then some e.dst else if e.dst = v then some e.src else none

/-- The total weight of a vertex sequence: the sum of the edge weights of
its consecutive pairs, `⊤` if some consecutive pair is not an edge. -/
def pathWeight (g : AGraph) : List String → WithTop ℚ
  | [] => 0
  | [_] => 0
  | a :: b :: rest =>
    (match getWeight g a b with
      | none => (⊤ : WithTop ℚ)
      | some w => (w : WithTop ℚ)) + pathWeight g (b :: rest)

/-- `p` is a path of the graph from `a` to `b`: nonempty, starts at `a`,
ends at `b`, every consecutive pair is an edge, every element a vertex. -/
def IsPathFrom (g : AGraph) (a b : String) (p : List String) : Prop :=
  p ≠ [] ∧ p.head? = some a ∧ p.getLast? = some b ∧
    List.Chain' (fun x y => (getWeight g x y).isSome) p ∧
    ∀ x ∈ p, x ∈ g.vertexNames

instance (g : AGraph) (a b : String) (p : List String) :
    Decidable (IsPathFrom g a b p) := by
  unfold IsPathFrom; infer_instance

/-- Pointwise update of a score or predecessor map (`d[k] = v`). -/
def upd {α : Type} (f : String → α) (k : String) (v : α) : String → α :=
  fun x => if x = k then v else f x

/-- `getPath(cameFrom, current, start)` with fuel: reconstructs the
vertex-name sequence from `start` to `current` by walking `cameFrom`
backwards, prepending at each step.  `none` models a `KeyError` on a
missing predecessor or non-termination of the `while` loop. -/
def getPathF (cf : String → Option String) (start : String) :
    ℕ → String → Option (List String)
  | 0, _ => none
  | fuel + 1, cur =>
    if cur = start then some [cur]
    else
      match cf cur with
      | none => none
      | some p => (getPathF cf start fuel p).map fun l => l ++ [cur]

/-- The type of the heuristic argument of `AStar`: a function of the
graph, start vertex, goal vertex, vertex being scored, the current
`openSet` and the current `cameFrom` map, returning a numeric estimate. -/
def HFun : Type :=
  AGraph → String → String → String → List String → (String → Option String) → ℚ

/-- The search state owned by one invocation of `AStar`: the open set,
the predecessor map and the two score maps, plus the `intermediatePath`
expansion trace.  `fTrace` is ghost instrumentation recording, for each
expanded vertex, its `fScore` as read at the moment it was selected for
expansion (needed to state the temporal claim about expansion order). -/
structure AState where
  openSet : List String
  cameFrom : String → Option String
  gScore : String → WithTop ℚ
  fScore : String → WithTop ℚ
  trace : List String
  fTrace : List (WithTop ℚ)

/-- `min(openSet, key=fScore.get)`: the first element of `x :: l`
attaining the least `fScore`, scanned left to right. -/
def pyMin (f : String → WithTop ℚ) (x : String) (l : List String) : String :=
  l.foldl (fun best y => if f y < f best then y else best) x

/-- The possible returns of one call of `AStar`: a `(trace, route)` pair,
or the `igraph` vertex-lookup error raised when a name is absent. -/
inductive AOut where
  | done (trace route : List String)
  | vertexNotFound
deriving DecidableEq, Repr

/-- The state just before the main loop of `AStar`: `openSet = [start]`,
`gScore[start] = 0`, `fScore[start]` is the heuristic called once with
the initial open set and empty `cameFrom`, and all other entries `⊤`. -/
def initState (g : AGraph) (h : HFun) (s t : String) : AState where
  openSet := [s]
  cameFrom := fun _ => none
  gScore := fun v => if v = s then 0 else ⊤
  fScore := fun v =>
    if v = s then ((h g s t s [s] fun _ => none : ℚ) : WithTop ℚ) else ⊤
  trace := []
  fTrace := []

/-- The inner `for neigh in adjacent` loop of `AStar`: for each listed
neighbour, look up the connecting edge weight, and on a strict `gScore`
improvement update `cameFrom`, `gScore`, `fScore` (calling the heuristic
with the open set as it is at that moment) and append the neighbour to
the open set if absent.  `none` models the `igraph` error on a missing
edge lookup. -/
def expandNeighbors (g : AGraph) (h : HFun) (s t current : String) :
    List String → AState → Option AState
  | [], st => some st
  | n :: ns, st =>
    match getWeight g current n with
    | none => none
    | some w =>
      let ng := st.gScore current + (w : WithTop ℚ)
      if ng < st.gScore n then
        let cf := upd st.cameFrom n (some current)
        let fs := upd st.fScore n (ng + ((h g s t n st.openSet cf : ℚ) : WithTop ℚ))
        let os := if n ∈ st.openSet then st.openSet else st.openSet ++ [n]
        expandNeighbors g h s t current ns
          { openSet := os, cameFrom := cf, gScore := upd st.gScore n ng,
            fScore := fs, trace := st.trace, fTrace := st.fTrace }
      else expandNeighbors g h s t current ns st

/-- The `while len(openSet) != 0` loop of `AStar`, with fuel.  Each
iteration selects the open vertex of least `fScore`, appends it to the
trace, returns `(trace, getPath(...))` when it is the goal, and otherwise
removes it from the open set and expands its neighbours.  The final
search state is returned alongside the result so that claims about the
state at termination can be stated. -/
def loopGo (g : AGraph) (h : HFun) (s t : String) :
    ℕ → AState → Option (AOut × AState)
  | 0, _ => none
  | fuel + 1, st =>
    match st.openSet with
    | [] => some (AOut.done [] [], st)
    | c :: cs =>
      let current := pyMin st.fScore c cs
      let st1 : AState :=
        { st with trace := st.trace ++ [current],
                  fTrace := st.fTrace ++ [st.fScore current] }
      if current = t then
        match getPathF st1.cameFrom s (g.vertexNames.length + 1) current with
        | none => none
        | some route => some (AOut.done st1.trace route, st1)
      else
        match expandNeighbors g h s t current (neighborList g current)
            { st1 with openSet := st1.openSet.erase current } with
        | none => none
        | some st2 => loopGo g h s t fuel st2

/-- `AStar(graph, heuristic, start_vertex, end_vertex)`: the start=goal
short circuit, then the two `graph.vs.find(name=...)` lookups (failing
with the vertex-not-found error), then the main loop from the initial
state. -/
def AStarFuel (fuel : ℕ) (g : AGraph) (h : HFun) (s t : String) : Option AOut :=
  if s = t then some (AOut.done [s] [s])
  else
    if s ∈ g.vertexNames then
      if t ∈ g.vertexNames then
        (loopGo g h s t fuel (initState g h s t)).map Prod.fst
      else some AOut.vertexNotFound
    else some AOut.vertexNotFound

/-- Projection of a run used to state claims about the `gScore` of the
goal at the moment of termination: the result together with the final
`gScore[goal]`. -/
def runGoalScore (fuel : ℕ) (g : AGraph) (h : HFun) (s t : String) :
    Option (AOut × WithTop ℚ) :=
  (loopGo g h s t fuel (initState g h s t)).map fun r => (r.1, r.2.gScore t)

/-- Projection of a run used to state the temporal claim about expansion
order: the result together with the sequence of `fScore` values of the
expanded vertices, each read at its selection moment. -/
def runFTrace (fuel : ℕ) (g : AGraph) (h : HFun) (s t : String) :
    Option (AOut × List (WithTop ℚ)) :=
  (loopGo g h s t fuel (initState g h s t)).map fun r => (r.1, r.2.fTrace)

/-! ## The heuristics of the source file -/

/-- One step of `g.delete_edges([pair])`: remove the first edge joining
the pair (in either orientation), `none` (an `igraph` error) when the
pair is joined by no edge. -/
def deleteEdgePair (g : AGraph) (pr : String × String) : Option AGraph :=
  match g.edges.findIdx?
      (fun e => (e.src == pr.1 && e.dst == pr.2) || (e.src == pr.2 && e.dst == pr.1)) with
  | none => none
  | some i =>
    some { g with edges := g.edges.eraseIdx i }

/-- `g.delete_edges(edges)` for a list of vertex-name pairs. -/
def deleteEdges (g : AGraph) (prs : List (String × String)) : Option AGraph :=
  prs.foldlM deleteEdgePair g

/-- Insertion step for sorting edges by weight. -/
def insertEdgeByWeight (e : Edge) : List Edge → List Edge
  | [] => [e]
  | f :: fs => if e.weight ≤ f.weight then e :: f :: fs else f :: insertEdgeByWeight e fs

/-- Edges sorted by non-decreasing weight. -/
def sortEdgesByWeight (es : List Edge) : List Edge :=
  es.foldr insertEdgeByWeight []

/-- Index of the component containing `v` in a component partition. -/
def compIdx (comps : List (List String)) (v : String) : Option ℕ :=
  comps.findIdx? fun c => c.contains v

/-- One Kruskal step over the state (component partition, accumulated
spanning-forest weight). -/
def kruskalStep (st : List (List String) × ℚ) (e : Edge) : List (List String) × ℚ :=
  match compIdx st.1 e.src, compIdx st.1 e.dst with
  | some i, some j =>
    if i = j then st
    else
      (((st.1.eraseIdx (max i j)).eraseIdx (min i j)) ++
          [st.1.getD i [] ++ st.1.getD j []],
        st.2 + e.weight)
  | _, _ => st

/-- `g.spanning_tree(weights=...)` followed by summing the tree's edge
weights: the total weight of a minimum spanning forest of `g`, computed
here by Kruskal (the source lets `igraph` compute the tree; the summed
weight is the same for every minimum spanning forest). -/
def mstWeight (g : AGraph) : ℚ :=
  ((sortEdgesByWeight g.edges).foldl kruskalStep (g.vertexNames.map fun v => [v], 0)).2

/-- One round of relaxation of all edges over a tentative distance map. -/
def relaxOnce (g : AGraph) (d : String → WithTop ℚ) : String → WithTop ℚ := fun v =>
  g.edges.foldl
    (fun acc e =>
      if e.src = v then min acc (d e.dst + (e.weight : WithTop ℚ))
      else if e.dst = v then min acc (d e.src + (e.weight : WithTop ℚ))
      else acc)
    (d v)

/-- `g.get_shortest_paths(a, to=b, weights=..., output='epath')` followed
by summing the weights of the returned edge list: the shortest-path
distance from `a` to `b` (computed here by iterated relaxation, which
agrees with the library's Dijkstra on the non-negative weights in scope),
with the source's quirk that an unreachable goal yields the empty edge
list and hence the sum `0`. -/
def shortestCostQ (g : AGraph) (a b : String) : ℚ :=
  match (relaxOnce g)^[g.vertexNames.length]
      (fun v => if v = a then (0 : WithTop ℚ) else ⊤) b with
  | none => 0
  | some q => q

/-- `MSTHeuristic`: reconstruct the path from `start` to `current` via
`cameFrom`, delete its edges from a copy of the graph, and return the
total weight of a minimum spanning forest of the pruned copy.  `none`
models an exception (or divergence) in `getPath` or in the edge
deletion. -/
def MSTHeuristic (graph : AGraph) (start goal current : String)
    (openSet : List String) (cameFrom : String → Option String) : Option ℚ :=
  match getPathF cameFrom start (graph.vertexNames.length + 1) current with
  | none => none
  | some currentPath =>
    (deleteEdges graph (currentPath.zip currentPath.tail)).map mstWeight

/-- `djikstraHeuristic` (source spelling): reconstruct the already-taken
path, delete its edges from a copy, and return the cost of the shortest
path from `current` to `goal` in the pruned copy. -/
def djikstraHeuristic (graph : AGraph) (start goal current : String)
    (openSet : List String) (cameFrom : String → Option String) : Option ℚ :=
  match getPathF cameFrom start (graph.vertexNames.length + 1) current with
  | none => none
  | some currentPath =>
    (deleteEdges graph (currentPath.zip currentPath.tail)).map fun g2 =>
      shortestCostQ g2 current goal

/-- `euclideanDistanceHeuristic`.  Modelled from the spec: the geodesic
(great-circle) distance function of the external `geopy` library is not
part of this repository, so it is taken as an explicit parameter `geo`;
the heuristic applies it to the `(lat, long)` attributes of the current
vertex and of the goal vertex. -/
def euclideanDistanceHeuristic (geo : ℚ × ℚ → ℚ × ℚ → ℚ) (graph : AGraph)
    (start goal current : String) (openSet : List String)
    (cameFrom : String → Option String) : ℚ :=
  geo (graph.lat current, graph.long current) (graph.lat goal, graph.long goal)

/-! ## Heap-instrumented heuristics, for the mutation claim

To state that the heuristics never mutate the shared graph object, the
Python object store is made explicit: a heap of graph objects addressed
by index.  `deepcopy` allocates a fresh cell; `delete_edges` writes to
the cell it is called on.  Each instrumented body performs exactly the
source's statements and returns the estimate together with the final
heap. -/

/-- A heap of graph objects; a Python variable holding a graph is an
index into it. -/
structure Heap where
  graphs : List AGraph

/-- Placeholder graph for out-of-range heap reads. -/
def defaultGraph : AGraph :=
  { vertexNames := [], edges := [], lat := fun _ => 0, long := fun _ => 0 }

/-- The body of `MSTHeuristic` as heap transformer: read the shared graph
at `graphRef`, reconstruct the current path, `deepcopy` the graph into a
fresh cell, `delete_edges` on that cell, and sum the minimum spanning
forest weights of the cell's content. -/
def MSTHeuristicImp (σ : Heap) (graphRef : ℕ) (start goal current : String)
    (openSet : List String) (cameFrom : String → Option String) :
    Option ℚ × Heap :=
  match getPathF cameFrom start
      ((σ.graphs.getD graphRef defaultGraph).vertexNames.length + 1) current with
  | none => (none, σ)
  | some currentPath =>
    match deleteEdges
        ((σ.graphs ++ [σ.graphs.getD graphRef defaultGraph]).getD σ.graphs.length
          defaultGraph)
        (currentPath.zip currentPath.tail) with
    | none => (none, ⟨σ.graphs ++ [σ.graphs.getD graphRef defaultGraph]⟩)
    | some g2 =>
      (some (mstWeight
          (((σ.graphs ++ [σ.graphs.getD graphRef defaultGraph]).set σ.graphs.length
              g2).getD σ.graphs.length defaultGraph)),
        ⟨(σ.graphs ++ [σ.graphs.getD graphRef defaultGraph]).set σ.graphs.length g2⟩)

/-- The body of `djikstraHeuristic` as heap transformer, with the same
store discipline as `MSTHeuristicImp`. -/
def djikstraHeuristicImp (σ : Heap) (graphRef : ℕ) (start goal current : String)
    (openSet : List String) (cameFrom : String → Option String) :
    Option ℚ × Heap :=
  match getPathF cameFrom start
      ((σ.graphs.getD graphRef defaultGraph).vertexNames.length + 1) current with
  | none => (none, σ)
  | some currentPath =>
    match deleteEdges
        ((σ.graphs ++ [σ.graphs.getD graphRef defaultGraph]).getD σ.graphs.length
          defaultGraph)
        (currentPath.zip currentPath.tail) with
    | none => (none, ⟨σ.graphs ++ [σ.graphs.getD graphRef defaultGraph]⟩)
    | some g2 =>
      (some (shortestCostQ
          (((σ.graphs ++ [σ.graphs.getD graphRef defaultGraph]).set σ.graphs.length
              g2).getD σ.graphs.length defaultGraph)
          current goal),
        ⟨(σ.graphs ++ [σ.graphs.getD graphRef defaultGraph]).set σ.graphs.length g2⟩)

/-! ## Concrete instances used by counterexamples and witnesses -/

/-- The heuristic that is constantly zero (admissible on any graph with
non-negative weights). -/
def hZero : HFun := fun _ _ _ _ _ _ => 0

/-- A one-vertex graph with no edges. -/
def gOneVertex : AGraph :=
  { vertexNames := ["A"], edges := [], lat := fun _ => 0, long := fun _ => 0 }

/-- Counterexample graph for the expansion-order claim:
`s-b` 1, `b-a` 1, `s-a` 3, `a-t` 10. -/
def gExp : AGraph :=
  { vertexNames := ["s", "a", "b", "t"],
    edges := [⟨"s", "b", 1⟩, ⟨"b", "a", 1⟩, ⟨"s", "a", 3⟩, ⟨"a", "t", 10⟩],
    lat := fun _ => 0, long := fun _ => 0 }

/-- An admissible but inconsistent heuristic on `gExp`: 5 at `b`, else 0
(the true remaining cost from `b` to `t` is 11). -/
def hExp : HFun := fun _ _ _ v _ _ => if v = "b" then 5 else 0

/-- Counterexample graph for the route-weight claim:
`s-p` 2, `p-n` 1, `n-t` 10, `s-q` 1, `q-p` 0. -/
def gStale : AGraph :=
  { vertexNames := ["s", "q", "p", "n", "t"],
    edges := [⟨"s", "p", 2⟩, ⟨"p", "n", 1⟩, ⟨"n", "t", 10⟩, ⟨"s", "q", 1⟩,
      ⟨"q", "p", 0⟩],
    lat := fun _ => 0, long := fun _ => 0 }

/-- A heuristic on `gStale` that steers the expansion so that `p`'s
`gScore` improves after `n` was reached through `p`, and keeps `p`
unexpanded afterwards. -/
def hStale : HFun := fun _ _ _ v _ cf =>
  if v = "p" then (if cf "p" = some "q" then 100 else 0)
  else if v = "q" then 2
  else if v = "n" then 10
  else 0

/-- A three-vertex graph in which `Z` is isolated. -/
def gDisco : AGraph :=
  { vertexNames := ["A", "B", "Z"], edges := [⟨"A", "B", 1⟩],
    lat := fun _ => 0, long := fun _ => 0 }

/-- The four-vertex cycle of the spec's concrete scenario:
`A-B` 1, `B-C` 2, `C-D` 1, `D-A` 5. -/
def gCycle : AGraph :=
  { vertexNames := ["A", "B", "C", "D"],
    edges := [⟨"A", "B", 1⟩, ⟨"B", "C", 2⟩, ⟨"C", "D", 1⟩, ⟨"D", "A", 5⟩],
    lat := fun _ => 0, long := fun _ => 0 }

/-! ## Invariants of the search loop

The propositions below are the proof-level description of the reachable
search states; they are not part of the embedded code. -/

/-- The predecessor chain of `v` under a `cameFrom` map: the list of
vertices from `s` to `v` obtained by following predecessors, with no
repetitions.  This is exactly the sequence `getPath` reconstructs. -/
inductive Chain (cf : String → Option String) (s : String) :
    String → List String → Prop
  | base : Chain cf s s [s]
  | step {v p : String} {l : List String} :
      cf v = some p → Chain cf s p l → v ∉ l → Chain cf s v (l ++ [v])

/-- `GBounds g gs p`: along the vertex sequence `p`, every vertex's
`gs`-score is at most the weight of the portion of `p` up to it. -/
def GBounds (g : AGraph) (gs : String → WithTop ℚ) (p : List String) : Prop :=
  ∀ i : ℕ, ∀ hi : i < p.length, gs p[i] ≤ pathWeight g (p.take (i + 1))

/-- The pointwise invariants that hold at every state the search can be
in, including in the middle of one neighbour expansion. -/
structure CoreInv (g : AGraph) (h : HFun) (s t : String) (st : AState) : Prop where
  gs_start : st.gScore s = 0
  cf_start : st.cameFrom s = none
  gs_nonneg : ∀ v, 0 ≤ st.gScore v
  cf_edge : ∀ v p, st.cameFrom v = some p →
    ∃ w : ℚ, getWeight g p v = some w ∧ st.gScore p + (w : WithTop ℚ) ≤ st.gScore v
  cf_mem : ∀ v p, st.cameFrom v = some p → p ∈ g.vertexNames ∧ v ∈ g.vertexNames
  cf_fin : ∀ v, st.cameFrom v ≠ none → st.gScore v < ⊤
  fin_cf : ∀ v, st.gScore v < ⊤ → v = s ∨ st.cameFrom v ≠ none
  chains : ∀ v, st.cameFrom v ≠ none → ∃ l, Chain st.cameFrom s v l
  spath : ∀ v, st.gScore v < ⊤ → ∃ p, p.Nodup ∧ IsPathFrom g s v p ∧
    pathWeight g p = st.gScore v ∧ GBounds g st.gScore p
  fscore : ∀ v, (st.fScore v = ⊤ ∧ st.gScore v = ⊤) ∨
    ∃ os cf, st.fScore v =
      st.gScore v + ((h g s t v os cf : ℚ) : WithTop ℚ)
  open_fin : ∀ v ∈ st.openSet, st.gScore v < ⊤
  open_nodup : st.openSet.Nodup
  open_mem : ∀ v ∈ st.openSet, v ∈ g.vertexNames

/-- The invariants that hold at every loop head: the core invariants,
the relaxation property of closed vertices, the goal's presence in the
open set while it is reached but unexpanded, and the goal's absence from
the trace so far. -/
structure LoopInv (g : AGraph) (h : HFun) (s t : String) (st : AState) : Prop where
  core : CoreInv g h s t st
  relax : ∀ u, u ∉ st.openSet → ∀ v w, getWeight g u v = some w →
    st.gScore v ≤ st.gScore u + (w : WithTop ℚ)
  goal_open : st.gScore t < ⊤ → t ∈ st.openSet
  goal_trace : t ∉ st.trace

/-- Facts relating the state after expanding the neighbour list `ns` of
`current` to the state before. -/
structure ExpandFacts (g : AGraph) (h : HFun) (s t current : String)
    (ns : List String) (st st' : AState) : Prop where
  gs_mono : ∀ v, st'.gScore v ≤ st.gScore v
  gs_cur : st'.gScore current = st.gScore current
  open_grow : ∀ v ∈ st.openSet, v ∈ st'.openSet
  trace_eq : st'.trace = st.trace
  ftrace_eq : st'.fTrace = st.fTrace
  changed : ∀ v,
    (st'.gScore v = st.gScore v ∧ st'.cameFrom v = st.cameFrom v ∧
      st'.fScore v = st.fScore v) ∨
    (st'.gScore v < st.gScore v ∧ st'.cameFrom v = some current ∧
      v ∈ st'.openSet ∧
      (∃ w : ℚ, getWeight g current v = some w ∧
        st'.gScore v = st.gScore current + (w : WithTop ℚ)) ∧
      ∃ os cf, st'.fScore v =
        st'.gScore v + ((h g s t v os cf : ℚ) : WithTop ℚ))
  open_sub : ∀ v ∈ st'.openSet, v ∈ st.openSet ∨ st'.gScore v < st.gScore v
  rel_ns : ∀ n ∈ ns, ∃ w : ℚ, getWeight g current n = some w ∧
    st'.gScore n ≤ st.gScore current + (w : WithTop ℚ)
  same_or_dec : st' = st ∨ ∃ v, st'.gScore v < st.gScore v

/-- Admissibility (together with non-negativity) of a heuristic for a
fixed graph, start and goal: whatever open set and predecessor snapshot
it is called with, the estimate for a vertex is non-negative and bounds
from below the weight of every path from that vertex to the goal. -/
def Admissible (g : AGraph) (s t : String) (h : HFun) : Prop :=
  ∀ v os cf, 0 ≤ h g s t v os cf ∧
    ∀ p, IsPathFrom g v t p →
      ((h g s t v os cf : ℚ) : WithTop ℚ) ≤ pathWeight g p

/-- The weights of the duplicate-free paths from `s` to `v`: a finite
set, within which every finite `gScore[v]` of a reachable state lies. -/
def SPWset (g : AGraph) (s v : String) : Set ℚ :=
  {q | ∃ p, p.Nodup ∧ IsPathFrom g s v p ∧ pathWeight g p = (q : WithTop ℚ)}

/-- The number of duplicate-free path weights strictly below `gs v`:
strictly decreases whenever `gScore[v]` is improved. -/
noncomputable def rankV (g : AGraph) (s : String) (gs : String → WithTop ℚ)
    (v : String) : ℕ :=
  {q ∈ SPWset g s v | (q : WithTop ℚ) < gs v}.ncard

/-- Total rank of a score map over the graph's vertices. -/
noncomputable def measureM1 (g : AGraph) (s : String)
    (gs : String → WithTop ℚ) : ℕ :=
  ∑ v ∈ g.vertexNames.toFinset, rankV g s gs v

/-- The loop variant: strictly decreases at every non-returning
iteration. -/
noncomputable def loopPhi (g : AGraph) (s : String) (st : AState) : ℕ :=
  measureM1 g s st.gScore * (g.vertexNames.length + 1) + st.openSet.length

/-- The state produced by one accepted neighbour update inside the
expansion loop (with `ng = gScore[current] + w`). -/
def updState (g : AGraph) (h : HFun) (s t current n : String) (w : ℚ)
    (st : AState) : AState :=
  { openSet := if n ∈ st.openSet then st.openSet else st.openSet ++ [n],
    cameFrom := upd st.cameFrom n (some current),
    gScore := upd st.gScore n (st.gScore current + (w : WithTop ℚ)),
    fScore := upd st.fScore n
      (st.gScore current + (w : WithTop ℚ) +
        ((h g s t n st.openSet (upd st.cameFrom n (some current)) : ℚ) :
          WithTop ℚ)),
    trace := st.trace, fTrace := st.fTrace }

/-- The state just after `current` is appended to the trace and removed
from the open set, before its neighbours are expanded. -/
def popState (st : AState) (current : String) : AState :=
  { openSet := st.openSet.erase current, cameFrom := st.cameFrom,
    gScore := st.gScore, fScore := st.fScore,
    trace := st.trace ++ [current],
    fTrace := st.fTrace ++ [st.fScore current] }

/-! # Claim theorems -/

set_option linter.unusedVariables false

/-- **C10.** When the start identifier equals the goal identifier, `AStar`
returns `([start], [start])` before any vertex lookup: the call succeeds
with this result for every string, including identifiers naming no vertex
of the graph, and never raises a vertex-not-found error. -/
theorem astar_start_eq_goal (fuel : ℕ) (g : AGraph) (h : HFun) (s : String) :
    AStarFuel fuel g h s s = some (AOut.done [s] [s]) := by
  unfold AStarFuel
  simp

/-- **C3.** For every graph, heuristic and vertex `x` of the graph,
`AStar(graph, heuristic, x, x)` returns `([x], [x])`, independently of
the heuristic (the right-hand side does not mention `h`). -/
theorem astar_same_vertex (fuel : ℕ) (g : AGraph) (h : HFun) (x : String)
    (hx : x ∈ g.vertexNames) :
    AStarFuel fuel g h x x = some (AOut.done [x] [x]) := by
  unfold AStarFuel
  simp

/-- Witness for `astar_same_vertex` at a concrete graph and vertex. -/
theorem astar_same_vertex_witness :
    ("A" : String) ∈ gOneVertex.vertexNames ∧
      AStarFuel 3 gOneVertex hZero "A" "A" = some (AOut.done ["A"] ["A"]) :=
  ⟨by decide, astar_same_vertex 3 gOneVertex hZero "A" (by decide)⟩

/-- **C4, counterexample.** The claim says every call whose start or goal
identifier names no vertex fails with the vertex-not-found error rather
than returning a result, but when the two identifiers are equal the
start=goal short circuit fires first: `"Z"` names no vertex of
`gOneVertex`, yet the call returns `(["Z"], ["Z"])`. -/
theorem astar_missing_vertex_claim_false :
    ("Z" : String) ∉ gOneVertex.vertexNames ∧
      AStarFuel 3 gOneVertex hZero "Z" "Z" = some (AOut.done ["Z"] ["Z"]) := by
  constructor
  · decide
  · decide

/-- **C4, amended.** For distinct start and goal identifiers, if either
names no vertex of the graph, `AStar` fails with the vertex-not-found
error before any search step, rather than returning a result. -/
theorem astar_missing_vertex_error (fuel : ℕ) (g : AGraph) (h : HFun)
    {s t : String} (hne : s ≠ t)
    (hmiss : s ∉ g.vertexNames ∨ t ∉ g.vertexNames) :
    AStarFuel fuel g h s t = some AOut.vertexNotFound := by
  unfold AStarFuel
  rw [if_neg hne]
  rcases hmiss with hm | hm
  · rw [if_neg hm]
  · by_cases hs : s ∈ g.vertexNames
    · rw [if_pos hs, if_neg hm]
    · rw [if_neg hs]

/-- Witness for `astar_missing_vertex_error` at a concrete call. -/
theorem astar_missing_vertex_error_witness :
    ("Z" : String) ≠ "A" ∧ ("Z" : String) ∉ gOneVertex.vertexNames ∧
      AStarFuel 3 gOneVertex hZero "Z" "A" = some AOut.vertexNotFound :=
  ⟨by decide, by decide,
    astar_missing_vertex_error 3 gOneVertex hZero (by decide) (Or.inl (by decide))⟩

/-- **C9.** Each heuristic is a function of the graph, start, goal, the
vertex being scored and the `cameFrom` map only: two calls agreeing on
those five arguments return the same estimate whatever `openSet` argument
the engine also passes (and, the heuristics being plain functions of
their arguments, no other state can influence them). -/
theorem heuristics_ignore_openSet (graph : AGraph) (s t v : String)
    (os os' : List String) (cf : String → Option String) :
    MSTHeuristic graph s t v os cf = MSTHeuristic graph s t v os' cf ∧
      djikstraHeuristic graph s t v os cf = djikstraHeuristic graph s t v os' cf ∧
      ∀ geo : ℚ × ℚ → ℚ × ℚ → ℚ,
        euclideanDistanceHeuristic geo graph s t v os cf =
          euclideanDistanceHeuristic geo graph s t v os' cf :=
  ⟨rfl, rfl, fun _ => rfl⟩

/-- **C8.** The MST heuristic and the reduced-graph shortest-path
heuristic never mutate the graph passed to them: each deletes the
already-travelled edges only from a freshly allocated copy, and the heap
cell of the shared input graph is unchanged (vertex set, edge set and all
attributes) when the call returns. -/
theorem heuristics_no_mutation (σ : Heap) (graphRef : ℕ) (s t v : String)
    (os : List String) (cf : String → Option String)
    (href : graphRef < σ.graphs.length) :
    (MSTHeuristicImp σ graphRef s t v os cf).2.graphs[graphRef]? =
        σ.graphs[graphRef]? ∧
      (djikstraHeuristicImp σ graphRef s t v os cf).2.graphs[graphRef]? =
        σ.graphs[graphRef]? := by
  have hcell : ∀ x : AGraph, (σ.graphs ++ [x])[graphRef]? = σ.graphs[graphRef]? :=
    fun x => List.getElem?_append_left href
  have hcell2 : ∀ x y : AGraph,
      ((σ.graphs ++ [x]).set σ.graphs.length y)[graphRef]? = σ.graphs[graphRef]? := by
    intro x y
    rw [List.getElem?_set_ne (Ne.symm (Nat.ne_of_lt href))]
    exact hcell x
  constructor
  · unfold MSTHeuristicImp
    split
    · rfl
    · split
      · exact hcell _
      · exact hcell2 _ _
  · unfold djikstraHeuristicImp
    split
    · rfl
    · split
      · exact hcell _
      · exact hcell2 _ _

/-- Witness for `heuristics_no_mutation` at a concrete heap. -/
theorem heuristics_no_mutation_witness :
    0 < (Heap.mk [gCycle]).graphs.length ∧
      (MSTHeuristicImp (Heap.mk [gCycle]) 0 "A" "C" "A" [] (fun _ => none)).2.graphs[0]? =
          (Heap.mk [gCycle]).graphs[0]? ∧
        (djikstraHeuristicImp (Heap.mk [gCycle]) 0 "A" "C" "A" [] (fun _ => none)).2.graphs[0]? =
          (Heap.mk [gCycle]).graphs[0]? :=
  ⟨by decide,
    heuristics_no_mutation (Heap.mk [gCycle]) 0 "A" "C" "A" [] (fun _ => none) (by decide)⟩

/-- **C6, counterexample.**  A run (on `gExp` with the admissible
heuristic `hExp`) in which the sequence of `fScore` values of the
expanded vertices, each read at its selection moment, is
`0, 3, 6, 2, 12` — not non-decreasing, since the fourth expanded vertex
has a strictly smaller `fScore` than the third. -/
theorem astar_fscore_order_claim_false :
    runFTrace 20 gExp hExp "s" "t" =
      some (AOut.done ["s", "a", "b", "a", "t"] ["s", "b", "a", "t"],
        [((0 : ℚ) : WithTop ℚ), ((3 : ℚ) : WithTop ℚ), ((6 : ℚ) : WithTop ℚ),
          ((2 : ℚ) : WithTop ℚ), ((12 : ℚ) : WithTop ℚ)]) ∧
      ¬ List.Chain' (· ≤ ·)
        [((0 : ℚ) : WithTop ℚ), ((3 : ℚ) : WithTop ℚ), ((6 : ℚ) : WithTop ℚ),
          ((2 : ℚ) : WithTop ℚ), ((12 : ℚ) : WithTop ℚ)] := by
  constructor
  · with_unfolding_all decide
  · intro hch
    have h62 := (List.chain'_cons.mp (List.chain'_cons.mp (List.chain'_cons.mp hch).2).2).1
    exact absurd h62 (by with_unfolding_all decide)

/-- **C5, counterexample.**  A successful run (on `gStale` with the
heuristic `hStale`) that returns via the goal check with
`gScore[goal] = 13` at termination while the returned route
`s, q, p, n, t` has total edge weight `12`: the route's second vertex
`q` improved `p`'s `gScore` after `n` had been reached through `p`, and
the stale link was never repaired before the goal was expanded. -/
theorem astar_route_weight_claim_false :
    runGoalScore 30 gStale hStale "s" "t" =
      some (AOut.done ["s", "p", "q", "n", "t"] ["s", "q", "p", "n", "t"],
        ((13 : ℚ) : WithTop ℚ)) ∧
      pathWeight gStale ["s", "q", "p", "n", "t"] = ((12 : ℚ) : WithTop ℚ) ∧
      ((12 : ℚ) : WithTop ℚ) ≠ ((13 : ℚ) : WithTop ℚ) :=
  ⟨by with_unfolding_all decide, by with_unfolding_all decide,
    by with_unfolding_all decide⟩

/-! ## Basic lemmas about the embedded operations -/

theorem upd_self {α : Type} (f : String → α) (k : String) (v : α) :
    upd f k v k = v := by
  simp [upd]

theorem upd_ne {α : Type} (f : String → α) {x k : String} (v : α) (h : x ≠ k) :
    upd f k v x = f x := by
  simp [upd, h]

theorem getWeight_exists_edge {g : AGraph} {u v : String} {w : ℚ}
    (h : getWeight g u v = some w) :
    ∃ e ∈ g.edges, ((e.src = u ∧ e.dst = v) ∨ (e.src = v ∧ e.dst = u)) ∧
      e.weight = w := by
  unfold getWeight at h
  rcases Option.map_eq_some'.mp h with ⟨e, hfind, hw⟩
  refine ⟨e, List.mem_of_find?_eq_some hfind, ?_, hw⟩
  have hp := List.find?_some hfind
  simpa using hp

theorem getWeight_nonneg {g : AGraph} (hwf : WFGraph g) {u v : String} {w : ℚ}
    (h : getWeight g u v = some w) : 0 ≤ w := by
  rcases getWeight_exists_edge h with ⟨e, he, _, hw⟩
  exact hw ▸ (hwf.2 e he).2.2

theorem getWeight_mem {g : AGraph} (hwf : WFGraph g) {u v : String} {w : ℚ}
    (h : getWeight g u v = some w) :
    u ∈ g.vertexNames ∧ v ∈ g.vertexNames := by
  rcases getWeight_exists_edge h with ⟨e, he, hor, _⟩
  rcases hwf.2 e he with ⟨h1, h2, _⟩
  rcases hor with ⟨ha, hb⟩ | ⟨ha, hb⟩
  · exact ⟨ha ▸ h1, hb ▸ h2⟩
  · exact ⟨hb ▸ h2, ha ▸ h1⟩

theorem getWeight_symm (g : AGraph) (u v : String) :
    getWeight g u v = getWeight g v u := by
  unfold getWeight
  have hp : (fun e : Edge => (e.src == u && e.dst == v) || (e.src == v && e.dst == u)) =
      fun e : Edge => (e.src == v && e.dst == u) || (e.src == u && e.dst == v) := by
    funext e
    exact Bool.or_comm _ _
  rw [hp]

theorem mem_neighborList_of_getWeight {g : AGraph} {u v : String} {w : ℚ}
    (h : getWeight g u v = some w) : v ∈ neighborList g u := by
  rcases getWeight_exists_edge h with ⟨e, he, hor, _⟩
  unfold neighborList
  rw [List.mem_filterMap]
  refine ⟨e, he, ?_⟩
  rcases hor with ⟨ha, hb⟩ | ⟨ha, hb⟩
  · rw [if_pos ha, hb]
  · by_cases hsu : e.src = u
    · rw [if_pos hsu]
      rw [ha] at hsu
      rw [hb, hsu]
    · rw [if_neg hsu, if_pos hb, ha]

theorem getWeight_isSome_of_mem_neighborList {g : AGraph} {u n : String}
    (hn : n ∈ neighborList g u) : (getWeight g u n).isSome := by
  unfold neighborList at hn
  rw [List.mem_filterMap] at hn
  rcases hn with ⟨e, he, hfe⟩
  unfold getWeight
  have hfind : (g.edges.find? fun e =>
      (e.src == u && e.dst == n) || (e.src == n && e.dst == u)).isSome := by
    rw [List.find?_isSome]
    refine ⟨e, he, ?_⟩
    by_cases hsu : e.src = u
    · rw [if_pos hsu] at hfe
      have hd : e.dst = n := Option.some.inj hfe
      simp [hsu, hd]
    · rw [if_neg hsu] at hfe
      by_cases hdu : e.dst = u
      · rw [if_pos hdu] at hfe
        have hsn : e.src = n := Option.some.inj hfe
        simp [hdu, hsn]
      · rw [if_neg hdu] at hfe
        exact absurd hfe (by simp)
  rcases Option.isSome_iff_exists.mp hfind with ⟨w, hw⟩
  rw [hw]
  rfl

theorem pathWeight_nonneg {g : AGraph} (hwf : WFGraph g) (p : List String) :
    0 ≤ pathWeight g p := by
  induction p with
  | nil => simp [pathWeight]
  | cons a rest ih =>
    cases rest with
    | nil => simp [pathWeight]
    | cons b rest' =>
      rw [pathWeight]
      refine add_nonneg ?_ ih
      cases hgw : getWeight g a b with
      | none => simp
      | some w =>
        simp only
        rw [← WithTop.coe_zero, WithTop.coe_le_coe]
        exact getWeight_nonneg hwf hgw

theorem pathWeight_snoc {g : AGraph} {l : List String} {x y : String} {w : ℚ}
    (hl : l.getLast? = some x) (hw : getWeight g x y = some w) :
    pathWeight g (l ++ [y]) = pathWeight g l + (w : WithTop ℚ) := by
  induction l with
  | nil => simp at hl
  | cons a l ih =>
    cases l with
    | nil =>
      simp only [List.getLast?_singleton, Option.some.injEq] at hl
      subst hl
      simp only [List.singleton_append, List.cons_append, List.nil_append]
      rw [pathWeight, pathWeight, pathWeight, hw]
      simp
    | cons b l' =>
      have hl' : (b :: l').getLast? = some x := by
        rw [List.getLast?_cons_cons] at hl
        exact hl
      have := ih hl'
      simp only [List.cons_append] at this ⊢
      rw [pathWeight, pathWeight, this, add_assoc]

theorem pathWeight_split (g : AGraph) (q1 : List String) (u : String)
    (q2 : List String) :
    pathWeight g (q1 ++ u :: q2) =
      pathWeight g (q1 ++ [u]) + pathWeight g (u :: q2) := by
  induction q1 with
  | nil =>
    simp only [List.nil_append]
    rw [pathWeight]
    simp
  | cons a q1' ih =>
    cases q1' with
    | nil =>
      simp only [List.nil_append, List.cons_append]
      rw [pathWeight, pathWeight, pathWeight]
      simp [add_assoc]
    | cons b q1'' =>
      simp only [List.cons_append] at ih ⊢
      rw [pathWeight, pathWeight, ih, add_assoc]

theorem pathWeight_append_le {g : AGraph} (hwf : WFGraph g) :
    ∀ l1 l2 : List String, pathWeight g l1 ≤ pathWeight g (l1 ++ l2) := by
  intro l1
  induction l1 with
  | nil =>
    intro l2
    simpa [pathWeight] using pathWeight_nonneg hwf l2
  | cons a l1' ih =>
    intro l2
    cases l1' with
    | nil =>
      have h0 : pathWeight g [a] = 0 := by rw [pathWeight]
      rw [h0]
      exact pathWeight_nonneg hwf ([a] ++ l2)
    | cons b l1'' =>
      simp only [List.cons_append] at ih ⊢
      rw [pathWeight, pathWeight]
      exact add_le_add_left (ih l2) _

theorem chain_edges_weight_lt_top {g : AGraph} :
    ∀ p : List String,
      List.Chain' (fun x y => (getWeight g x y).isSome) p →
        pathWeight g p < ⊤ := by
  intro p
  induction p with
  | nil =>
    intro _
    rw [pathWeight]
    exact WithTop.top_pos
  | cons a rest ih =>
    intro hch
    cases rest with
    | nil =>
      rw [pathWeight]
      exact WithTop.top_pos
    | cons b rest' =>
      rw [List.chain'_cons] at hch
      rw [pathWeight]
      have h1 : (match getWeight g a b with
          | none => (⊤ : WithTop ℚ)
          | some w => (w : WithTop ℚ)) < ⊤ := by
        rcases Option.isSome_iff_exists.mp hch.1 with ⟨w, hw⟩
        rw [hw]
        exact WithTop.coe_lt_top w
      exact WithTop.add_lt_top.mpr ⟨h1, ih hch.2⟩

theorem isPath_weight_lt_top {g : AGraph} {a b : String} {p : List String}
    (hp : IsPathFrom g a b p) : pathWeight g p < ⊤ :=
  chain_edges_weight_lt_top p hp.2.2.2.1

theorem isPath_singleton {g : AGraph} {v : String} (hv : v ∈ g.vertexNames) :
    IsPathFrom g v v [v] := by
  refine ⟨by simp, rfl, rfl, by simp, ?_⟩
  intro x hx
  rw [List.mem_singleton] at hx
  exact hx ▸ hv

theorem isPath_suffix {g : AGraph} {s t u : String} {q1 q2 : List String}
    (hp : IsPathFrom g s t (q1 ++ u :: q2)) : IsPathFrom g u t (u :: q2) := by
  obtain ⟨hne, hhead, hlast, hch, hmem⟩ := hp
  refine ⟨by simp, rfl, ?_, ?_, ?_⟩
  · rw [← hlast]
    rcases Option.isSome_iff_exists.mp
        (List.getLast?_isSome.mpr (List.cons_ne_nil u q2)) with ⟨z, hz⟩
    rw [List.getLast?_append, hz]
    rfl
  · exact List.Chain'.suffix hch ⟨q1, rfl⟩
  · intro x hx
    exact hmem x (by simp [hx])

theorem isPath_pair {g : AGraph} {s t x y : String} {q1 q2 : List String}
    (hp : IsPathFrom g s t (q1 ++ x :: y :: q2)) :
    ∃ w : ℚ, getWeight g x y = some w := by
  have hs := isPath_suffix hp
  have hch := hs.2.2.2.1
  rw [List.chain'_cons] at hch
  exact Option.isSome_iff_exists.mp hch.1

theorem pyMin_cons (f : String → WithTop ℚ) (x y : String) (l : List String) :
    pyMin f x (y :: l) = pyMin f (if f y < f x then y else x) l := rfl

theorem pyMin_spec (f : String → WithTop ℚ) :
    ∀ (l : List String) (x : String),
      (pyMin f x l = x ∨ pyMin f x l ∈ l) ∧ f (pyMin f x l) ≤ f x ∧
        ∀ y ∈ l, f (pyMin f x l) ≤ f y := by
  intro l
  induction l with
  | nil =>
    intro x
    refine ⟨Or.inl rfl, le_refl _, ?_⟩
    intro y hy
    simp at hy
  | cons y l ih =>
    intro x
    rw [pyMin_cons]
    by_cases hlt : f y < f x
    · rw [if_pos hlt]
      rcases ih y with ⟨hmem, hle, hall⟩
      refine ⟨?_, le_trans hle (le_of_lt hlt), ?_⟩
      · rcases hmem with hm | hm
        · exact Or.inr (by simp [hm])
        · exact Or.inr (by simp [hm])
      · intro z hz
        rcases List.mem_cons.mp hz with hz | hz
        · exact hz ▸ hle
        · exact hall z hz
    · rw [if_neg hlt]
      rcases ih x with ⟨hmem, hle, hall⟩
      refine ⟨?_, hle, ?_⟩
      · rcases hmem with hm | hm
        · exact Or.inl hm
        · exact Or.inr (by simp [hm])
      · intro z hz
        rcases List.mem_cons.mp hz with hz | hz
        · rw [hz]
          exact le_trans hle (le_of_not_lt hlt)
        · exact hall z hz

theorem pyMin_mem (f : String → WithTop ℚ) (x : String) (l : List String) :
    pyMin f x l ∈ x :: l := by
  rcases (pyMin_spec f l x).1 with hm | hm
  · simp [hm]
  · simp [hm]

theorem pyMin_le (f : String → WithTop ℚ) (x : String) (l : List String) :
    ∀ y ∈ x :: l, f (pyMin f x l) ≤ f y := by
  intro y hy
  rcases List.mem_cons.mp hy with hy | hy
  · exact hy ▸ (pyMin_spec f l x).2.1
  · exact (pyMin_spec f l x).2.2 y hy

/-! ## Lemmas about predecessor chains -/

theorem chain_ne_nil {cf : String → Option String} {s v : String} {l : List String}
    (hc : Chain cf s v l) : l ≠ [] := by
  cases hc with
  | base => simp
  | step hv hch hnotin => simp

theorem chain_last {cf : String → Option String} {s v : String} {l : List String}
    (hc : Chain cf s v l) : l.getLast? = some v := by
  cases hc with
  | base => rfl
  | step hv hch hnotin => exact List.getLast?_concat _

theorem chain_nodup {cf : String → Option String} {s v : String} {l : List String}
    (hc : Chain cf s v l) : l.Nodup := by
  induction hc with
  | base => simp
  | step hv hch hnotin ih => simp [List.nodup_append, ih, hnotin]

theorem chain_mem_sub {cf : String → Option String} {s v : String} {l : List String}
    {V : List String} (hs : s ∈ V)
    (hcf : ∀ a p, cf a = some p → p ∈ V ∧ a ∈ V)
    (hc : Chain cf s v l) : ∀ x ∈ l, x ∈ V := by
  induction hc with
  | base =>
    intro x hx
    rw [List.mem_singleton] at hx
    exact hx ▸ hs
  | step hv hch hnotin ih =>
    intro x hx
    rcases List.mem_append.mp hx with hx | hx
    · exact ih x hx
    · rw [List.mem_singleton] at hx
      exact hx ▸ (hcf _ _ hv).2

theorem chain_gscore_le {g : AGraph} (hwf : WFGraph g)
    {cf : String → Option String} {gs : String → WithTop ℚ} {s v : String}
    {l : List String}
    (hedge : ∀ a p, cf a = some p →
      ∃ w : ℚ, getWeight g p a = some w ∧ gs p + (w : WithTop ℚ) ≤ gs a)
    (hc : Chain cf s v l) : ∀ x ∈ l, gs x ≤ gs v := by
  induction hc with
  | base =>
    intro x hx
    rw [List.mem_singleton] at hx
    exact hx ▸ le_refl _
  | step hv hch hnotin ih =>
    intro x hx
    rcases hedge _ _ hv with ⟨w, hw, hle⟩
    have hpv : gs _ ≤ gs _ := le_trans
      (le_add_of_nonneg_right (by
        rw [← WithTop.coe_zero, WithTop.coe_le_coe]
        exact getWeight_nonneg hwf hw)) hle
    rcases List.mem_append.mp hx with hx | hx
    · exact le_trans (ih x hx) hpv
    · rw [List.mem_singleton] at hx
      exact hx ▸ le_refl _

theorem chain_congr {cf cf' : String → Option String} {s v : String}
    {l : List String} (hc : Chain cf s v l)
    (heq : ∀ x ∈ l, cf' x = cf x) : Chain cf' s v l := by
  induction hc with
  | base => exact Chain.base
  | @step a p l' hv hch hnotin ih =>
    refine Chain.step (p := p) ?_ ?_ hnotin
    · rw [heq _ (by simp)]
      exact hv
    · exact ih fun x hx => heq x (by simp [hx])

theorem chain_weight_le {g : AGraph} {cf : String → Option String}
    {gs : String → WithTop ℚ} {s v : String} {l : List String}
    (hgs0 : gs s = 0)
    (hedge : ∀ a p, cf a = some p →
      ∃ w : ℚ, getWeight g p a = some w ∧ gs p + (w : WithTop ℚ) ≤ gs a)
    (hc : Chain cf s v l) : pathWeight g l ≤ gs v := by
  induction hc with
  | base =>
    rw [pathWeight, hgs0]
  | step hv hch hnotin ih =>
    rcases hedge _ _ hv with ⟨w, hw, hle⟩
    rw [pathWeight_snoc (chain_last hch) hw]
    exact le_trans (add_le_add_right ih _) hle

theorem chain_isPath {g : AGraph} {cf : String → Option String} {s v : String}
    {l : List String} (hs : s ∈ g.vertexNames)
    (hedge : ∀ a p, cf a = some p → ∃ w : ℚ, getWeight g p a = some w)
    (hmem : ∀ a p, cf a = some p → p ∈ g.vertexNames ∧ a ∈ g.vertexNames)
    (hc : Chain cf s v l) : IsPathFrom g s v l := by
  induction hc with
  | base => exact isPath_singleton hs
  | step hv hch hnotin ih =>
    obtain ⟨hne, hhead, hlast, hchain, hmems⟩ := ih
    refine ⟨by simp, ?_, List.getLast?_concat _, ?_, ?_⟩
    · rcases List.exists_cons_of_ne_nil hne with ⟨a, l', heq⟩
      subst heq
      simpa using hhead
    · rw [List.chain'_append]
      refine ⟨hchain, by simp, ?_⟩
      intro x hx y hy
      simp only [List.head?_cons, Option.mem_def, Option.some.injEq] at hy
      rw [hlast] at hx
      simp only [Option.mem_def, Option.some.injEq] at hx
      subst hx
      subst hy
      rcases hedge _ _ hv with ⟨w, hw⟩
      rw [hw]
      rfl
    · intro x hx
      rcases List.mem_append.mp hx with hx | hx
      · exact hmems x hx
      · rw [List.mem_singleton] at hx
        exact hx ▸ (hmem _ _ hv).2

theorem chain_getPathF {cf : String → Option String} {s v : String}
    {l : List String} (hcfs : cf s = none) (hc : Chain cf s v l) :
    ∀ fuel : ℕ, l.length ≤ fuel → getPathF cf s fuel v = some l := by
  induction hc with
  | base =>
    intro fuel hfuel
    cases fuel with
    | zero => simp at hfuel
    | succ fuel' => simp [getPathF]
  | @step a p l' hv hch hnotin ih =>
    intro fuel hfuel
    have hane : a ≠ s := by
      intro heq
      rw [heq, hcfs] at hv
      exact Option.noConfusion hv
    cases fuel with
    | zero =>
      simp only [List.length_append, List.length_singleton] at hfuel
      omega
    | succ fuel' =>
      have hlen : l'.length ≤ fuel' := by
        simp only [List.length_append, List.length_singleton] at hfuel
        omega
      have hred : getPathF cf s (fuel' + 1) a =
          (getPathF cf s fuel' p).map fun l0 => l0 ++ [a] := by
        rw [getPathF, if_neg hane, hv]
      rw [hred, ih fuel' hlen]
      rfl

theorem nodup_length_le {l L : List String} (hnd : l.Nodup) (hsub : l ⊆ L) :
    l.length ≤ L.length :=
  List.Subperm.length_le (List.subperm_of_subset hnd hsub)

/-! ## Finiteness of duplicate-free path weights, and the rank measure -/

theorem lists_bounded_finite (L : List String) :
    ∀ n : ℕ, {l : List String | l.length ≤ n ∧ ∀ x ∈ l, x ∈ L}.Finite := by
  intro n
  induction n with
  | zero =>
    refine Set.Finite.subset (Set.finite_singleton ([] : List String)) ?_
    intro l hl
    rcases hl with ⟨hlen, _⟩
    rw [Set.mem_singleton_iff]
    exact List.eq_nil_of_length_eq_zero (Nat.le_zero.mp hlen)
  | succ n ih =>
    refine Set.Finite.subset
      (Set.Finite.insert ([] : List String)
        (Set.Finite.image (fun p : String × List String => p.1 :: p.2)
          (Set.Finite.prod L.toFinset.finite_toSet ih))) ?_
    intro l hl
    rcases hl with ⟨hlen, hmem⟩
    cases l with
    | nil => exact Set.mem_insert _ _
    | cons a l' =>
      refine Set.mem_insert_of_mem _ ⟨(a, l'), ⟨?_, ?_, ?_⟩, rfl⟩
      · simp only [Set.mem_setOf_eq, Finset.coe_sort_coe]
        exact List.mem_toFinset.mpr (hmem a (by simp))
      · simpa using Nat.le_of_succ_le_succ hlen
      · intro x hx
        exact hmem x (by simp [hx])

theorem SPW_finite (g : AGraph) (s v : String) : (SPWset g s v).Finite := by
  refine Set.Finite.subset
    (Set.Finite.image (fun l => (pathWeight g l).untop' 0)
      (lists_bounded_finite g.vertexNames g.vertexNames.length)) ?_
  intro q hq
  rcases hq with ⟨p, hnd, hp, hw⟩
  refine ⟨p, ⟨nodup_length_le hnd fun x hx => hp.2.2.2.2 x hx, hp.2.2.2.2⟩, ?_⟩
  show (pathWeight g p).untop' 0 = q
  rw [hw]
  rfl

theorem rankV_le {g : AGraph} {s : String} {gs gs' : String → WithTop ℚ}
    {v : String} (hle : gs' v ≤ gs v) : rankV g s gs' v ≤ rankV g s gs v := by
  refine Set.ncard_le_ncard ?_
    (Set.Finite.subset (SPW_finite g s v) fun q hq => hq.1)
  intro q hq
  exact ⟨hq.1, lt_of_lt_of_le hq.2 hle⟩

theorem rankV_lt {g : AGraph} {s : String} {gs gs' : String → WithTop ℚ}
    {v : String} {q0 : ℚ} (hq : q0 ∈ SPWset g s v)
    (heq : ((q0 : ℚ) : WithTop ℚ) = gs' v) (hlt : gs' v < gs v) :
    rankV g s gs' v < rankV g s gs v := by
  refine Set.ncard_lt_ncard ?_
    (Set.Finite.subset (SPW_finite g s v) fun q hq => hq.1)
  constructor
  · intro q hq'
    exact ⟨hq'.1, lt_of_lt_of_le hq'.2 (le_of_lt hlt)⟩
  · intro hcontra
    have hq0 : q0 ∈ {q ∈ SPWset g s v | (q : WithTop ℚ) < gs v} :=
      ⟨hq, heq ▸ hlt⟩
    have := (hcontra hq0).2
    rw [heq] at this
    exact lt_irrefl _ this

theorem measureM1_le {g : AGraph} {s : String} {gs gs' : String → WithTop ℚ}
    (hall : ∀ v, gs' v ≤ gs v) :
    measureM1 g s gs' ≤ measureM1 g s gs :=
  Finset.sum_le_sum fun v _ => rankV_le (hall v)

theorem measureM1_lt {g : AGraph} {s : String} {gs gs' : String → WithTop ℚ}
    {v0 : String} (hv0mem : v0 ∈ g.vertexNames)
    (hall : ∀ v, gs' v ≤ gs v) (hv0 : rankV g s gs' v0 < rankV g s gs v0) :
    measureM1 g s gs' < measureM1 g s gs :=
  Finset.sum_lt_sum (fun v _ => rankV_le (hall v))
    ⟨v0, List.mem_toFinset.mpr hv0mem, hv0⟩

theorem isPath_snoc {g : AGraph} {a b y : String} {p : List String} {w : ℚ}
    (hp : IsPathFrom g a b p) (hw : getWeight g b y = some w)
    (hy : y ∈ g.vertexNames) : IsPathFrom g a y (p ++ [y]) := by
  obtain ⟨hne, hhead, hlast, hchain, hmems⟩ := hp
  refine ⟨by simp, ?_, List.getLast?_concat _, ?_, ?_⟩
  · rcases List.exists_cons_of_ne_nil hne with ⟨c, p', heq⟩
    subst heq
    simpa using hhead
  · rw [List.chain'_append]
    refine ⟨hchain, by simp, ?_⟩
    intro x hx z hz
    simp only [List.head?_cons, Option.mem_def, Option.some.injEq] at hz
    rw [hlast] at hx
    simp only [Option.mem_def, Option.some.injEq] at hx
    subst hx
    subst hz
    rw [hw]
    rfl
  · intro x hx
    rcases List.mem_append.mp hx with hx | hx
    · exact hmems x hx
    · rw [List.mem_singleton] at hx
      exact hx ▸ hy

/-- After the update `cameFrom[n] := current`, every vertex whose old
predecessor chain passed through `n` still has a chain: the part of the
old chain up to `n` is replaced by `current`'s chain followed by `n`. -/
theorem chain_update_mem {g : AGraph} (hwf : WFGraph g)
    {cf : String → Option String} {gs : String → WithTop ℚ}
    {s current n : String} {w : ℚ} {lc : List String}
    (hedge : ∀ a p, cf a = some p →
      ∃ w' : ℚ, getWeight g p a = some w' ∧ gs p + (w' : WithTop ℚ) ≤ gs a)
    (hlc' : Chain (upd cf n (some current)) s current lc)
    (hglc : ∀ x ∈ lc, gs x ≤ gs current)
    (hnlc : n ∉ lc)
    (hns : n ≠ s)
    (hlt : gs current + (w : WithTop ℚ) < gs n)
    (hw0 : (0 : WithTop ℚ) ≤ (w : WithTop ℚ)) :
    ∀ {u : String} {l : List String}, Chain cf s u l → n ∈ l →
      ∃ l', Chain (upd cf n (some current)) s u l' ∧
        ∀ x ∈ l', x ∈ l ∨ x ∈ lc ∨ x = n := by
  intro u l hc
  induction hc with
  | base =>
    intro hn
    rw [List.mem_singleton] at hn
    exact absurd hn hns
  | @step a p l0 hcfa hch0 hnotin ih =>
    intro hn
    by_cases ha : a = n
    · subst ha
      refine ⟨lc ++ [a], Chain.step (upd_self _ _ _) hlc' hnlc, ?_⟩
      intro x hx
      rcases List.mem_append.mp hx with hx | hx
      · exact Or.inr (Or.inl hx)
      · rw [List.mem_singleton] at hx
        exact Or.inr (Or.inr hx)
    · have hn0 : n ∈ l0 := by
        rcases List.mem_append.mp hn with hh | hh
        · exact hh
        · rw [List.mem_singleton] at hh
          exact absurd hh.symm ha
      rcases ih hn0 with ⟨l', hch', hsub'⟩
      have hglea : gs p ≤ gs a := by
        rcases hedge _ _ hcfa with ⟨w', hw', hle'⟩
        refine le_trans (le_add_of_nonneg_right ?_) hle'
        rw [← WithTop.coe_zero, WithTop.coe_le_coe]
        exact getWeight_nonneg hwf hw'
      have hna : gs n ≤ gs a :=
        le_trans (chain_gscore_le hwf hedge hch0 n hn0) hglea
      have hanotin : a ∉ l' := by
        intro hmem
        rcases hsub' a hmem with hx | hx | hx
        · exact hnotin hx
        · have h1 : gs a ≤ gs current := hglc a hx
          have h2 : gs current ≤ gs current + (w : WithTop ℚ) :=
            le_add_of_nonneg_right hw0
          exact absurd (lt_of_le_of_lt (le_trans hna (le_trans h1 h2)) hlt)
            (lt_irrefl _)
        · exact ha hx
      refine ⟨l' ++ [a], Chain.step ?_ hch' hanotin, ?_⟩
      · rw [upd_ne _ _ ha]
        exact hcfa
      · intro x hx
        rcases List.mem_append.mp hx with hx | hx
        · rcases hsub' x hx with hh | hh | hh
          · exact Or.inl (List.mem_append_left _ hh)
          · exact Or.inr (Or.inl hh)
          · exact Or.inr (Or.inr hh)
        · rw [List.mem_singleton] at hx
          exact Or.inl (List.mem_append_right _ (by simp [hx]))

theorem update_core {g : AGraph} {h : HFun} {s t current n : String} {w : ℚ}
    {st : AState} (hwf : WFGraph g) (hinv : CoreInv g h s t st)
    (hw : getWeight g current n = some w)
    (hlt : st.gScore current + (w : WithTop ℚ) < st.gScore n)
    (hcur : st.gScore current < ⊤) :
    CoreInv g h s t (updState g h s t current n w st) := by
  have hw0 : (0 : WithTop ℚ) ≤ (w : WithTop ℚ) := by
    rw [← WithTop.coe_zero, WithTop.coe_le_coe]
    exact getWeight_nonneg hwf hw
  have hng0 : (0 : WithTop ℚ) ≤ st.gScore current + (w : WithTop ℚ) :=
    add_nonneg (hinv.gs_nonneg current) hw0
  have hns : n ≠ s := by
    intro hh
    rw [hh, hinv.gs_start] at hlt
    exact absurd (lt_of_le_of_lt hng0 hlt) (lt_irrefl _)
  have hsn : s ≠ n := fun hh => hns hh.symm
  have hnc : n ≠ current := by
    intro hh
    rw [hh] at hlt
    exact absurd (lt_of_le_of_lt (le_add_of_nonneg_right hw0) hlt) (lt_irrefl _)
  have hcn : current ≠ n := fun hh => hnc hh.symm
  have hngtop : st.gScore current + (w : WithTop ℚ) < ⊤ :=
    WithTop.add_lt_top.mpr ⟨hcur, WithTop.coe_lt_top w⟩
  have hmemcn := getWeight_mem hwf hw
  -- the old chain of `current`
  have hlc : ∃ lc, Chain st.cameFrom s current lc := by
    by_cases hcs : current = s
    · exact ⟨[s], hcs ▸ Chain.base⟩
    · rcases hinv.fin_cf current hcur with hh | hh
      · exact absurd hh hcs
      · exact hinv.chains current hh
  obtain ⟨lc, hlcch⟩ := hlc
  have hglc : ∀ x ∈ lc, st.gScore x ≤ st.gScore current :=
    chain_gscore_le hwf hinv.cf_edge hlcch
  have hnlc : n ∉ lc := by
    intro hh
    exact absurd
      (lt_of_le_of_lt
        (le_trans (hglc n hh) (le_add_of_nonneg_right hw0)) hlt)
      (lt_irrefl _)
  have hlc' : Chain (upd st.cameFrom n (some current)) s current lc :=
    chain_congr hlcch fun x hx => upd_ne _ _ fun hh => hnlc (hh ▸ hx)
  -- shorthand for the updated maps
  set ng := st.gScore current + (w : WithTop ℚ) with hngdef
  have hgs_at : ∀ x, x ≠ n →
      (updState g h s t current n w st).gScore x = st.gScore x :=
    fun x hx => upd_ne _ _ hx
  have hgs_n : (updState g h s t current n w st).gScore n = ng :=
    upd_self _ _ _
  have hgs_le : ∀ x, (updState g h s t current n w st).gScore x ≤ st.gScore x := by
    intro x
    by_cases hx : x = n
    · rw [hx, hgs_n]
      exact le_of_lt hlt
    · rw [hgs_at x hx]
  have hcf_at : ∀ x, x ≠ n →
      (updState g h s t current n w st).cameFrom x = st.cameFrom x :=
    fun x hx => upd_ne _ _ hx
  have hcf_n : (updState g h s t current n w st).cameFrom n = some current :=
    upd_self _ _ _
  refine ⟨?_, ?_, ?_, ?_, ?_, ?_, ?_, ?_, ?_, ?_, ?_, ?_, ?_⟩
  · -- gs_start
    rw [hgs_at s hsn]
    exact hinv.gs_start
  · -- cf_start
    rw [hcf_at s hsn]
    exact hinv.cf_start
  · -- gs_nonneg
    intro v
    by_cases hv : v = n
    · rw [hv, hgs_n]
      exact hng0
    · rw [hgs_at v hv]
      exact hinv.gs_nonneg v
  · -- cf_edge
    intro v p hvp
    by_cases hv : v = n
    · subst hv
      rw [hcf_n] at hvp
      have hp : p = current := (Option.some.inj hvp).symm
      subst hp
      refine ⟨w, hw, ?_⟩
      rw [hgs_n, hgs_at p hcn]
    · rw [hcf_at v hv] at hvp
      rcases hinv.cf_edge v p hvp with ⟨w', hw', hle'⟩
      refine ⟨w', hw', ?_⟩
      rw [hgs_at v hv]
      exact le_trans (add_le_add_right (hgs_le p) _) hle'
  · -- cf_mem
    intro v p hvp
    by_cases hv : v = n
    · subst hv
      rw [hcf_n] at hvp
      have hp : p = current := (Option.some.inj hvp).symm
      subst hp
      exact ⟨hmemcn.1, hmemcn.2⟩
    · rw [hcf_at v hv] at hvp
      exact hinv.cf_mem v p hvp
  · -- cf_fin
    intro v hv
    by_cases hvn : v = n
    · rw [hvn, hgs_n]
      exact hngtop
    · rw [hgs_at v hvn]
      rw [hcf_at v hvn] at hv
      exact hinv.cf_fin v hv
  · -- fin_cf
    intro v hv
    by_cases hvn : v = n
    · subst hvn
      rw [hcf_n]
      exact Or.inr (by simp)
    · rw [hgs_at v hvn] at hv
      rcases hinv.fin_cf v hv with hh | hh
      · exact Or.inl hh
      · rw [hcf_at v hvn]
        exact Or.inr hh
  · -- chains
    intro v hv
    by_cases hvn : v = n
    · subst hvn
      exact ⟨lc ++ [v], Chain.step hcf_n hlc' hnlc⟩
    · rw [hcf_at v hvn] at hv
      rcases hinv.chains v hv with ⟨l, hl⟩
      by_cases hnl : n ∈ l
      · rcases chain_update_mem hwf hinv.cf_edge hlc' hglc hnlc hns hlt hw0
            hl hnl with ⟨l', hl', _⟩
        exact ⟨l', hl'⟩
      · exact ⟨l, chain_congr hl fun x hx =>
          upd_ne _ _ fun hh => hnl (hh ▸ hx)⟩
  · -- spath
    intro v hv
    by_cases hvn : v = n
    · subst hvn
      rcases hinv.spath current hcur with ⟨pc, hnd, hpath, hwt, hbd⟩
      have hnpc : v ∉ pc := by
        intro hh
        rcases List.mem_iff_getElem.mp hh with ⟨i, hi, hgi⟩
        have h1 : st.gScore v ≤ pathWeight g (pc.take (i + 1)) := hgi ▸ hbd i hi
        have h2 : pathWeight g (pc.take (i + 1)) ≤ pathWeight g pc := by
          conv_rhs => rw [← List.take_append_drop (i + 1) pc]
          exact pathWeight_append_le hwf _ _
        rw [hwt] at h2
        exact absurd
          (lt_of_le_of_lt
            (le_trans h1 (le_trans h2 (le_add_of_nonneg_right hw0))) hlt)
          (lt_irrefl _)
      have hlastpc : pc.getLast? = some current := hpath.2.2.1
      refine ⟨pc ++ [v], ?_, ?_, ?_, ?_⟩
      · simp [List.nodup_append, hnd, hnpc]
      · exact isPath_snoc hpath hw hmemcn.2
      · rw [pathWeight_snoc hlastpc hw, hwt, hgs_n]
      · intro i hi
        rw [List.length_append, List.length_singleton] at hi
        by_cases hile : i < pc.length
        · have hb : i < (pc ++ [v]).length := by
            simp only [List.length_append, List.length_singleton]
            omega
          have he1 : (pc ++ [v])[i] = pc[i] := List.getElem_append_left hile
          have he2 : (pc ++ [v]).take (i + 1) = pc.take (i + 1) :=
            List.take_append_of_le_length hile
          rw [he1, he2]
          have hmem : pc[i] ∈ pc := List.getElem_mem hile
          have hne : pc[i] ≠ v := fun hh => hnpc (hh ▸ hmem)
          rw [hgs_at _ hne]
          exact hbd i hile
        · have hieq : i = pc.length := by omega
          have hb : i < (pc ++ [v]).length := by
            simp only [List.length_append, List.length_singleton]
            omega
          have he1 : (pc ++ [v])[i] = v :=
            List.getElem_concat_length _ _ _ hieq _
          have he2 : (pc ++ [v]).take (i + 1) = pc ++ [v] := by
            have hlen : i + 1 = (pc ++ [v]).length := by
              rw [List.length_append, List.length_singleton, hieq]
            rw [hlen, List.take_length]
          rw [he1, he2, hgs_n, pathWeight_snoc hlastpc hw, hwt]
    · rw [hgs_at v hvn] at hv ⊢
      rcases hinv.spath v hv with ⟨p, hnd, hpath, hwt, hbd⟩
      refine ⟨p, hnd, hpath, hwt, ?_⟩
      intro i hi
      exact le_trans (hgs_le _) (hbd i hi)
  · -- fscore
    intro v
    by_cases hvn : v = n
    · subst hvn
      refine Or.inr ⟨st.openSet, upd st.cameFrom v (some current), ?_⟩
      rw [hgs_n]
      exact upd_self _ _ _
    · have hfs : (updState g h s t current n w st).fScore v = st.fScore v :=
        upd_ne _ _ hvn
      rcases hinv.fscore v with ⟨h1, h2⟩ | ⟨os, cf, h1⟩
      · exact Or.inl ⟨hfs.trans h1, (hgs_at v hvn).trans h2⟩
      · exact Or.inr ⟨os, cf, by rw [hfs, hgs_at v hvn]; exact h1⟩
  · -- open_fin
    intro v hv
    show (updState g h s t current n w st).gScore v < ⊤
    by_cases hvn : v = n
    · rw [hvn, hgs_n]
      exact hngtop
    · rw [hgs_at v hvn]
      refine hinv.open_fin v ?_
      show v ∈ st.openSet
      by_cases hmem : n ∈ st.openSet
      · have : (updState g h s t current n w st).openSet = st.openSet := if_pos hmem
        rw [this] at hv
        exact hv
      · have : (updState g h s t current n w st).openSet = st.openSet ++ [n] :=
          if_neg hmem
        rw [this] at hv
        rcases List.mem_append.mp hv with hh | hh
        · exact hh
        · rw [List.mem_singleton] at hh
          exact absurd hh hvn
  · -- open_nodup
    show ((updState g h s t current n w st).openSet).Nodup
    by_cases hmem : n ∈ st.openSet
    · have : (updState g h s t current n w st).openSet = st.openSet := if_pos hmem
      rw [this]
      exact hinv.open_nodup
    · have : (updState g h s t current n w st).openSet = st.openSet ++ [n] :=
        if_neg hmem
      rw [this]
      simp [List.nodup_append, hinv.open_nodup, hmem]
  · -- open_mem
    intro v hv
    by_cases hmem : n ∈ st.openSet
    · have he : (updState g h s t current n w st).openSet = st.openSet := if_pos hmem
      rw [he] at hv
      exact hinv.open_mem v hv
    · have he : (updState g h s t current n w st).openSet = st.openSet ++ [n] :=
        if_neg hmem
      rw [he] at hv
      rcases List.mem_append.mp hv with hh | hh
      · exact hinv.open_mem v hh
      · rw [List.mem_singleton] at hh
        exact hh ▸ hmemcn.2

theorem expand_cons_update {g : AGraph} {h : HFun} {s t current n : String}
    {w : ℚ} {ns : List String} {st : AState}
    (hw : getWeight g current n = some w)
    (hlt : st.gScore current + (w : WithTop ℚ) < st.gScore n) :
    expandNeighbors g h s t current (n :: ns) st =
      expandNeighbors g h s t current ns (updState g h s t current n w st) := by
  rw [expandNeighbors, hw]
  simp only [if_pos hlt]
  rfl

theorem expand_cons_skip {g : AGraph} {h : HFun} {s t current n : String}
    {w : ℚ} {ns : List String} {st : AState}
    (hw : getWeight g current n = some w)
    (hge : ¬ st.gScore current + (w : WithTop ℚ) < st.gScore n) :
    expandNeighbors g h s t current (n :: ns) st =
      expandNeighbors g h s t current ns st := by
  rw [expandNeighbors, hw]
  simp only [if_neg hge]

theorem expand_spec {g : AGraph} {h : HFun} {s t current : String}
    (hwf : WFGraph g) :
    ∀ (ns : List String) (st : AState),
      CoreInv g h s t st → st.gScore current < ⊤ →
      (∀ n ∈ ns, (getWeight g current n).isSome) →
      ∃ st', expandNeighbors g h s t current ns st = some st' ∧
        CoreInv g h s t st' ∧ ExpandFacts g h s t current ns st st' := by
  intro ns
  induction ns with
  | nil =>
    intro st hinv hcur hns
    refine ⟨st, rfl, hinv, ?_⟩
    exact
      { gs_mono := fun v => le_refl _
        gs_cur := rfl
        open_grow := fun v hv => hv
        trace_eq := rfl
        ftrace_eq := rfl
        changed := fun v => Or.inl ⟨rfl, rfl, rfl⟩
        open_sub := fun v hv => Or.inl hv
        rel_ns := by intro n hn; simp at hn
        same_or_dec := Or.inl rfl }
  | cons n ns ih =>
    intro st hinv hcur hns
    obtain ⟨w, hw⟩ := Option.isSome_iff_exists.mp (hns n (by simp))
    have hnstail : ∀ m ∈ ns, (getWeight g current m).isSome :=
      fun m hm => hns m (by simp [hm])
    by_cases hupd : st.gScore current + (w : WithTop ℚ) < st.gScore n
    · -- the neighbour is updated, then the rest of the list is processed
      have hnc : n ≠ current := by
        intro hh
        rw [hh] at hupd
        have hw0 : (0 : WithTop ℚ) ≤ (w : WithTop ℚ) := by
          rw [← WithTop.coe_zero, WithTop.coe_le_coe]
          exact getWeight_nonneg hwf hw
        exact absurd (lt_of_le_of_lt (le_add_of_nonneg_right hw0) hupd)
          (lt_irrefl _)
      have hinv1 : CoreInv g h s t (updState g h s t current n w st) :=
        update_core hwf hinv hw hupd hcur
      have hgs1_at : ∀ x, x ≠ n →
          (updState g h s t current n w st).gScore x = st.gScore x :=
        fun x hx => upd_ne _ _ hx
      have hgs1_n : (updState g h s t current n w st).gScore n =
          st.gScore current + (w : WithTop ℚ) := upd_self _ _ _
      have hcur1 : (updState g h s t current n w st).gScore current < ⊤ := by
        rw [hgs1_at current fun hh => hnc hh.symm]
        exact hcur
      obtain ⟨st', heq', hinv', hf⟩ :=
        ih (updState g h s t current n w st) hinv1 hcur1 hnstail
      have hmemos1 : n ∈ (updState g h s t current n w st).openSet := by
        show n ∈ (if n ∈ st.openSet then st.openSet else st.openSet ++ [n])
        by_cases hmem : n ∈ st.openSet
        · rw [if_pos hmem]
          exact hmem
        · rw [if_neg hmem]
          exact List.mem_append_right _ (by simp)
      have hopen1 : ∀ v ∈ st.openSet,
          v ∈ (updState g h s t current n w st).openSet := by
        intro v hv
        show v ∈ (if n ∈ st.openSet then st.openSet else st.openSet ++ [n])
        by_cases hmem : n ∈ st.openSet
        · rw [if_pos hmem]
          exact hv
        · rw [if_neg hmem]
          exact List.mem_append_left _ hv
      have hopen1' : ∀ v, v ∈ (updState g h s t current n w st).openSet →
          v ∈ st.openSet ∨ v = n := by
        intro v hv
        by_cases hmem : n ∈ st.openSet
        · rw [show (updState g h s t current n w st).openSet = st.openSet from
            if_pos hmem] at hv
          exact Or.inl hv
        · rw [show (updState g h s t current n w st).openSet = st.openSet ++ [n]
            from if_neg hmem] at hv
          rcases List.mem_append.mp hv with hh | hh
          · exact Or.inl hh
          · exact Or.inr (List.mem_singleton.mp hh)
      have hgs1_le : ∀ x, (updState g h s t current n w st).gScore x ≤
          st.gScore x := by
        intro x
        by_cases hx : x = n
        · rw [hx, hgs1_n]
          exact le_of_lt hupd
        · rw [hgs1_at x hx]
      refine ⟨st', by rw [expand_cons_update hw hupd]; exact heq', hinv', ?_⟩
      refine
        { gs_mono := fun v => le_trans (hf.gs_mono v) (hgs1_le v)
          gs_cur := by
            rw [hf.gs_cur, hgs1_at current fun hh => hnc hh.symm]
          open_grow := fun v hv => hf.open_grow v (hopen1 v hv)
          trace_eq := hf.trace_eq
          ftrace_eq := hf.ftrace_eq
          changed := ?_
          open_sub := ?_
          rel_ns := ?_
          same_or_dec := Or.inr ⟨n, lt_of_le_of_lt (hf.gs_mono n)
            (hgs1_n ▸ hupd)⟩ }
      · -- changed
        intro v
        by_cases hvn : v = n
        · subst hvn
          refine Or.inr ⟨?_, ?_, hf.open_grow v hmemos1, ?_, ?_⟩
          · exact lt_of_le_of_lt (hf.gs_mono v) (hgs1_n ▸ hupd)
          · rcases hf.changed v with ⟨_, hcf, _⟩ | ⟨_, hcf, _, _, _⟩
            · rw [hcf]
              exact upd_self _ _ _
            · exact hcf
          · rcases hf.changed v with ⟨hgs, _, _⟩ | ⟨_, _, _, hedge, _⟩
            · exact ⟨w, hw, by rw [hgs, hgs1_n]⟩
            · rcases hedge with ⟨w', hw', hval⟩
              exact ⟨w', hw', by
                rw [hval, hgs1_at current fun hh => hnc hh.symm]⟩
          · rcases hf.changed v with ⟨hgs, _, hfs⟩ | ⟨_, _, _, _, hfs⟩
            · refine ⟨st.openSet, upd st.cameFrom v (some current), ?_⟩
              rw [hfs, hgs]
              show upd st.fScore v _ v = upd st.gScore v _ v + _
              rw [upd_self, upd_self]
            · exact hfs
        · rcases hf.changed v with ⟨hgs, hcf, hfs⟩ | ⟨hgs, hcf, hos, hedge, hfs⟩
          · refine Or.inl ⟨?_, ?_, ?_⟩
            · rw [hgs, hgs1_at v hvn]
            · rw [hcf]
              exact upd_ne _ _ hvn
            · rw [hfs]
              exact upd_ne _ _ hvn
          · refine Or.inr ⟨?_, hcf, hos, ?_, hfs⟩
            · exact lt_of_lt_of_le (hgs1_at v hvn ▸ hgs) (le_refl _)
            · rcases hedge with ⟨w', hw', hval⟩
              exact ⟨w', hw', by
                rw [hval, hgs1_at current fun hh => hnc hh.symm]⟩
      · -- open_sub
        intro v hv
        rcases hf.open_sub v hv with hh | hh
        · rcases hopen1' v hh with hh2 | hh2
          · exact Or.inl hh2
          · subst hh2
            exact Or.inr (lt_of_le_of_lt (hf.gs_mono v) (hgs1_n ▸ hupd))
        · exact Or.inr (lt_of_lt_of_le hh (hgs1_le v))
      · -- rel_ns
        intro m hm
        rcases List.mem_cons.mp hm with hm | hm
        · subst hm
          refine ⟨w, hw, ?_⟩
          exact le_trans (hf.gs_mono m) (le_of_eq hgs1_n)
        · rcases hf.rel_ns m hm with ⟨w', hw', hle'⟩
          refine ⟨w', hw', ?_⟩
          rw [hgs1_at current fun hh => hnc hh.symm] at hle'
          exact hle'
    · -- no update: the state is unchanged for this neighbour
      obtain ⟨st', heq', hinv', hf⟩ := ih st hinv hcur hnstail
      refine ⟨st', by rw [expand_cons_skip hw hupd]; exact heq', hinv', ?_⟩
      refine
        { gs_mono := hf.gs_mono
          gs_cur := hf.gs_cur
          open_grow := hf.open_grow
          trace_eq := hf.trace_eq
          ftrace_eq := hf.ftrace_eq
          changed := hf.changed
          open_sub := hf.open_sub
          rel_ns := ?_
          same_or_dec := hf.same_or_dec }
      intro m hm
      rcases List.mem_cons.mp hm with hm | hm
      · subst hm
        refine ⟨w, hw, ?_⟩
        exact le_trans (hf.gs_mono m) (le_of_not_lt hupd)
      · exact hf.rel_ns m hm

theorem pop_core {g : AGraph} {h : HFun} {s t current : String} {st : AState}
    (hinv : CoreInv g h s t st) : CoreInv g h s t (popState st current) :=
  { gs_start := hinv.gs_start
    cf_start := hinv.cf_start
    gs_nonneg := hinv.gs_nonneg
    cf_edge := hinv.cf_edge
    cf_mem := hinv.cf_mem
    cf_fin := hinv.cf_fin
    fin_cf := hinv.fin_cf
    chains := hinv.chains
    spath := hinv.spath
    fscore := hinv.fscore
    open_fin := fun v hv => hinv.open_fin v (List.mem_of_mem_erase hv)
    open_nodup := List.Nodup.erase current hinv.open_nodup
    open_mem := fun v hv => hinv.open_mem v (List.mem_of_mem_erase hv) }

theorem walk_witness {g : AGraph} {h : HFun} {s t : String} {st : AState}
    (hinv : LoopInv g h s t st) {q : List String} (hq : IsPathFrom g s t q) :
    ∃ u q1 q2, q = q1 ++ u :: q2 ∧ u ∈ st.openSet ∧
      st.gScore u ≤ pathWeight g (q1 ++ [u]) ∧
      IsPathFrom g u t (u :: q2) := by
  have hq0 : ∃ rest, q = s :: rest := by
    rcases List.exists_cons_of_ne_nil hq.1 with ⟨a, rest, heq⟩
    refine ⟨rest, ?_⟩
    have : a = s := by
      have hh := hq.2.1
      rw [heq] at hh
      exact Option.some.inj hh
    rw [heq, this]
  obtain ⟨rest, hqeq⟩ := hq0
  suffices haux : ∀ (q2 q1 : List String) (u : String), q = q1 ++ u :: q2 →
      st.gScore u ≤ pathWeight g (q1 ++ [u]) →
      ∃ u' q1' q2', q = q1' ++ u' :: q2' ∧ u' ∈ st.openSet ∧
        st.gScore u' ≤ pathWeight g (q1' ++ [u']) ∧
        IsPathFrom g u' t (u' :: q2') by
    refine haux rest [] s (by rw [hqeq]; rfl) ?_
    simp only [List.nil_append]
    rw [pathWeight, hinv.core.gs_start]
  intro q2
  induction q2 with
  | nil =>
    intro q1 u hqe hb
    have hut : u = t := by
      have hh := hq.2.2.1
      rw [hqe, List.getLast?_concat] at hh
      exact Option.some.inj hh
    subst hut
    have hwq : pathWeight g (q1 ++ [u]) < ⊤ := by
      have hh := isPath_weight_lt_top hq
      rw [hqe] at hh
      exact hh
    have hfin : st.gScore u < ⊤ := lt_of_le_of_lt hb hwq
    have hmemt : u ∈ g.vertexNames := by
      refine hq.2.2.2.2 u ?_
      rw [hqe]
      exact List.mem_append_right _ (by simp)
    exact ⟨u, q1, [], hqe, hinv.goal_open hfin, hb, isPath_singleton hmemt⟩
  | cons u2 q2' ih =>
    intro q1 u hqe hb
    by_cases hu : u ∈ st.openSet
    · exact ⟨u, q1, u2 :: q2', hqe, hu, hb, isPath_suffix (hqe ▸ hq)⟩
    · obtain ⟨w, hw⟩ := isPath_pair (hqe ▸ hq)
      have hrel := hinv.relax u hu u2 w hw
      have hb' : st.gScore u2 ≤ pathWeight g ((q1 ++ [u]) ++ [u2]) := by
        rw [pathWeight_snoc (List.getLast?_concat q1) hw]
        exact le_trans hrel (add_le_add_right hb _)
      have hqe' : q = (q1 ++ [u]) ++ u2 :: q2' := by rw [hqe]; simp
      exact ih (q1 ++ [u]) u2 hqe' hb'

theorem loop_step {g : AGraph} {h : HFun} {s t : String}
    (hwf : WFGraph g) (hs : s ∈ g.vertexNames) (ht : t ∈ g.vertexNames)
    (hst : s ≠ t) {st : AState} {c : String} {cs : List String}
    (hinv : LoopInv g h s t st) (hos : st.openSet = c :: cs) :
    (∃ route,
      (∀ fuel, loopGo g h s t (fuel + 1) st =
        some (AOut.done (st.trace ++ [t]) route,
          { st with
            trace := st.trace ++ [t]
            fTrace := st.fTrace ++ [st.fScore t] })) ∧
      IsPathFrom g s t route ∧ pathWeight g route ≤ st.gScore t ∧
      (Admissible g s t h → ∀ q, IsPathFrom g s t q →
        st.gScore t ≤ pathWeight g q)) ∨
    (∃ st', (∀ fuel, loopGo g h s t (fuel + 1) st = loopGo g h s t fuel st') ∧
      LoopInv g h s t st' ∧ loopPhi g s st' < loopPhi g s st) := by
  have hcurmem : pyMin st.fScore c cs ∈ st.openSet := by
    rw [hos]
    exact pyMin_mem _ c cs
  have hcurfin : st.gScore (pyMin st.fScore c cs) < ⊤ :=
    hinv.core.open_fin _ hcurmem
  by_cases hct : pyMin st.fScore c cs = t
  · left
    have htfin : st.gScore t < ⊤ := hct ▸ hcurfin
    have hcf : st.cameFrom t ≠ none := by
      rcases hinv.core.fin_cf t htfin with hh | hh
      · exact absurd hh.symm hst
      · exact hh
    obtain ⟨l, hl⟩ := hinv.core.chains t hcf
    have hget : getPathF st.cameFrom s (g.vertexNames.length + 1) t = some l := by
      refine chain_getPathF hinv.core.cf_start hl _ ?_
      have hsub : ∀ x ∈ l, x ∈ g.vertexNames :=
        chain_mem_sub hs hinv.core.cf_mem hl
      have hh := nodup_length_le (chain_nodup hl) hsub
      omega
    refine ⟨l, ?_, ?_, ?_, ?_⟩
    · intro fuel
      rw [loopGo, hos]
      simp only [hct, if_pos]
      rw [show ({ st with
          trace := st.trace ++ [t]
          fTrace := st.fTrace ++ [st.fScore t] } : AState).cameFrom =
          st.cameFrom from rfl, hget]
    · exact chain_isPath hs
        (fun a p hp => (hinv.core.cf_edge a p hp).elim fun w hw => ⟨w, hw.1⟩)
        hinv.core.cf_mem hl
    · exact chain_weight_le hinv.core.gs_start hinv.core.cf_edge hl
    · intro hadm q hq
      obtain ⟨u, q1, q2, hqe, humem, hub, hsuf⟩ := walk_witness hinv hq
      have hft : st.fScore t = st.gScore t := by
        rcases hinv.core.fscore t with ⟨h1, h2⟩ | ⟨os', cf', h1⟩
        · rw [h2] at htfin
          exact absurd htfin (lt_irrefl _)
        · have h0 : h g s t t os' cf' = 0 := by
            rcases hadm t os' cf' with ⟨hge, hle⟩
            have hle0 := hle [t] (isPath_singleton ht)
            rw [pathWeight] at hle0
            have hle1 : (h g s t t os' cf' : ℚ) ≤ 0 := by exact_mod_cast hle0
            linarith
          rw [h1, h0]
          simp
      have hfu : st.fScore t ≤ st.fScore u := by
        have hh := pyMin_le st.fScore c cs u (by rw [← hos]; exact humem)
        rw [hct] at hh
        exact hh
      have hufin : st.gScore u < ⊤ := hinv.core.open_fin u humem
      rcases hinv.core.fscore u with ⟨h1, h2⟩ | ⟨os', cf', h1⟩
      · rw [h2] at hufin
        exact absurd hufin (lt_irrefl _)
      · have hhu : ((h g s t u os' cf' : ℚ) : WithTop ℚ) ≤
            pathWeight g (u :: q2) := (hadm u os' cf').2 _ hsuf
        calc st.gScore t = st.fScore t := hft.symm
          _ ≤ st.fScore u := hfu
          _ = st.gScore u + ((h g s t u os' cf' : ℚ) : WithTop ℚ) := h1
          _ ≤ pathWeight g (q1 ++ [u]) + pathWeight g (u :: q2) :=
            add_le_add hub hhu
          _ = pathWeight g q := by rw [hqe, pathWeight_split g q1 u q2]
  · right
    have hinv2 : CoreInv g h s t (popState st (pyMin st.fScore c cs)) :=
      pop_core hinv.core
    have hcur2 : (popState st (pyMin st.fScore c cs)).gScore
        (pyMin st.fScore c cs) < ⊤ := hcurfin
    obtain ⟨st3, hexp, hinv3, hf⟩ := expand_spec hwf
      (neighborList g (pyMin st.fScore c cs))
      (popState st (pyMin st.fScore c cs)) hinv2 hcur2
      (fun m hm => getWeight_isSome_of_mem_neighborList hm)
    refine ⟨st3, ?_, ⟨hinv3, ?_, ?_, ?_⟩, ?_⟩
    · intro fuel
      rw [loopGo, hos]
      simp only [if_neg hct]
      rw [show ((c :: cs).erase (pyMin st.fScore c cs)) =
        st.openSet.erase (pyMin st.fScore c cs) from by rw [hos]]
      have hrec : AState.mk (st.openSet.erase (pyMin st.fScore c cs)) st.cameFrom
          st.gScore st.fScore (st.trace ++ [pyMin st.fScore c cs])
          (st.fTrace ++ [st.fScore (pyMin st.fScore c cs)]) =
          popState st (pyMin st.fScore c cs) := rfl
      rw [hrec, hexp]
    · -- relaxation property restored
      intro u hu v w hw
      by_cases huc : u = pyMin st.fScore c cs
      · rw [huc] at hw
        have hv_nbr : v ∈ neighborList g (pyMin st.fScore c cs) :=
          mem_neighborList_of_getWeight hw
        rcases hf.rel_ns v hv_nbr with ⟨w', hw', hle⟩
        have hww : w' = w := by
          rw [hw] at hw'
          exact (Option.some.inj hw').symm
        rw [hww] at hle
        rw [huc, hf.gs_cur]
        exact hle
      · have hu2 : u ∉ (popState st (pyMin st.fScore c cs)).openSet :=
          fun hh => hu (hf.open_grow u hh)
        have hu1 : u ∉ st.openSet := by
          intro hh
          exact hu2 ((List.mem_erase_of_ne huc).mpr hh)
        have hold := hinv.relax u hu1 v w hw
        rcases hf.changed u with ⟨hgs, _, _⟩ | ⟨_, _, hmem, _, _⟩
        · rw [hgs]
          exact le_trans (hf.gs_mono v) hold
        · exact absurd hmem hu
    · -- the goal stays in the open set while reached
      intro hfin3
      rcases hf.changed t with ⟨hgs, _, _⟩ | ⟨_, _, hmem, _, _⟩
      · rw [hgs] at hfin3
        have hmem1 : t ∈ st.openSet := hinv.goal_open hfin3
        have hmem2 : t ∈ (popState st (pyMin st.fScore c cs)).openSet :=
          (List.mem_erase_of_ne fun hh => hct hh.symm).mpr hmem1
        exact hf.open_grow t hmem2
      · exact hmem
    · -- the goal is still absent from the trace
      have htr : st3.trace = st.trace ++ [pyMin st.fScore c cs] := hf.trace_eq
      rw [htr]
      intro hmem
      rcases List.mem_append.mp hmem with hh | hh
      · exact hinv.goal_trace hh
      · rw [List.mem_singleton] at hh
        exact hct hh.symm
    · -- the variant strictly decreases
      rcases hf.same_or_dec with hsame | ⟨v0, hv0⟩
      · rw [hsame]
        show measureM1 g s st.gScore * (g.vertexNames.length + 1) +
            (st.openSet.erase (pyMin st.fScore c cs)).length <
          measureM1 g s st.gScore * (g.vertexNames.length + 1) +
            st.openSet.length
        have hlen : (st.openSet.erase (pyMin st.fScore c cs)).length =
            st.openSet.length - 1 := List.length_erase_of_mem hcurmem
        have hpos : 0 < st.openSet.length := by
          rw [hos]
          simp
        omega
      · rcases hf.changed v0 with ⟨heq, _, _⟩ | ⟨_, _, _, ⟨w0, hw0, hval0⟩, _⟩
        · rw [heq] at hv0
          exact absurd hv0 (lt_irrefl _)
        · have hv0mem : v0 ∈ g.vertexNames := (getWeight_mem hwf hw0).2
          have hfin3 : st3.gScore v0 < ⊤ := by
            rw [hval0]
            exact WithTop.add_lt_top.mpr ⟨hcurfin, WithTop.coe_lt_top w0⟩
          obtain ⟨q0, hq0⟩ := WithTop.ne_top_iff_exists.mp (ne_of_lt hfin3)
          rcases hinv3.spath v0 hfin3 with ⟨p, hnd, hpath, hwt, _⟩
          have hq0mem : q0 ∈ SPWset g s v0 := ⟨p, hnd, hpath, by rw [hwt, ← hq0]⟩
          have hrk : rankV g s st3.gScore v0 < rankV g s st.gScore v0 :=
            rankV_lt hq0mem hq0 hv0
          have hm1 : measureM1 g s st3.gScore < measureM1 g s st.gScore :=
            measureM1_lt hv0mem (fun v => hf.gs_mono v) hrk
          have hlen3 : st3.openSet.length ≤ g.vertexNames.length :=
            nodup_length_le hinv3.open_nodup fun x hx => hinv3.open_mem x hx
          show measureM1 g s st3.gScore * (g.vertexNames.length + 1) +
              st3.openSet.length <
            measureM1 g s st.gScore * (g.vertexNames.length + 1) +
              st.openSet.length
          calc measureM1 g s st3.gScore * (g.vertexNames.length + 1) +
              st3.openSet.length
              < measureM1 g s st3.gScore * (g.vertexNames.length + 1) +
                (g.vertexNames.length + 1) := by omega
            _ = (measureM1 g s st3.gScore + 1) * (g.vertexNames.length + 1) := by
                rw [Nat.succ_mul]
            _ ≤ measureM1 g s st.gScore * (g.vertexNames.length + 1) :=
                Nat.mul_le_mul_right _ (by omega)
            _ ≤ measureM1 g s st.gScore * (g.vertexNames.length + 1) +
                st.openSet.length := Nat.le_add_right _ _

theorem no_path_of_empty {g : AGraph} {h : HFun} {s t : String} {st : AState}
    (hinv : LoopInv g h s t st) (hos : st.openSet = []) :
    ∀ q, ¬ IsPathFrom g s t q := by
  intro q hq
  obtain ⟨u, q1, q2, _, humem, _, _⟩ := walk_witness hinv hq
  rw [hos] at humem
  simp at humem

theorem loop_master {g : AGraph} {h : HFun} {s t : String}
    (hwf : WFGraph g) (hs : s ∈ g.vertexNames) (ht : t ∈ g.vertexNames)
    (hst : s ≠ t) :
    ∀ (fuel : ℕ) (st : AState) (out : AOut) (stf : AState),
      LoopInv g h s t st →
      loopGo g h s t fuel st = some (out, stf) →
      (out = AOut.done [] [] ∧ ∀ q, ¬ IsPathFrom g s t q) ∨
      (∃ route,
        out = AOut.done stf.trace route ∧ stf.trace ≠ [] ∧
        stf.trace.getLast? = some t ∧ stf.trace.count t = 1 ∧
        IsPathFrom g s t route ∧ pathWeight g route ≤ stf.gScore t ∧
        (Admissible g s t h → ∀ q, IsPathFrom g s t q →
          stf.gScore t ≤ pathWeight g q)) := by
  intro fuel
  induction fuel with
  | zero =>
    intro st out stf hinv heq
    rw [loopGo] at heq
    exact Option.noConfusion heq
  | succ fuel ih =>
    intro st out stf hinv heq
    cases hos : st.openSet with
    | nil =>
      rw [loopGo, hos] at heq
      have hout : AOut.done [] [] = out := congrArg Prod.fst (Option.some.inj heq)
      exact Or.inl ⟨hout.symm, no_path_of_empty hinv hos⟩
    | cons c cs =>
      rcases loop_step hwf hs ht hst hinv hos with
        ⟨route, hrun, hpath, hwle, hopt⟩ | ⟨st', hrun, hinv', hphi⟩
      · rw [hrun fuel] at heq
        have hps := Option.some.inj heq
        have hout : out = AOut.done (st.trace ++ [t]) route :=
          (congrArg Prod.fst hps).symm
        have hstf : stf = { st with
            trace := st.trace ++ [t]
            fTrace := st.fTrace ++ [st.fScore t] } :=
          (congrArg Prod.snd hps).symm
        refine Or.inr ⟨route, ?_, ?_, ?_, ?_, hpath, ?_, ?_⟩
        · rw [hout, hstf]
        · rw [hstf]
          simp
        · rw [hstf]
          exact List.getLast?_concat _
        · rw [hstf]
          show (st.trace ++ [t]).count t = 1
          rw [List.count_append]
          rw [List.count_eq_zero.mpr hinv.goal_trace]
          simp
        · rw [hstf]
          exact hwle
        · rw [hstf]
          exact hopt
      · rw [hrun fuel] at heq
        exact ih st' out stf hinv' heq

theorem loop_term {g : AGraph} {h : HFun} {s t : String}
    (hwf : WFGraph g) (hs : s ∈ g.vertexNames) (ht : t ∈ g.vertexNames)
    (hst : s ≠ t) :
    ∀ (fuel : ℕ) (st : AState), LoopInv g h s t st →
      loopPhi g s st < fuel → ∃ r, loopGo g h s t fuel st = some r := by
  intro fuel
  induction fuel with
  | zero =>
    intro st _ hphi
    omega
  | succ fuel ih =>
    intro st hinv hphi
    cases hos : st.openSet with
    | nil =>
      refine ⟨(AOut.done [] [], st), ?_⟩
      rw [loopGo, hos]
    | cons c cs =>
      rcases loop_step hwf hs ht hst hinv hos with
        ⟨route, hrun, _, _, _⟩ | ⟨st', hrun, hinv', hphi'⟩
      · exact ⟨_, hrun fuel⟩
      · rw [hrun fuel]
        exact ih st' hinv' (by omega)

theorem init_inv {g : AGraph} {h : HFun} {s t : String}
    (hwf : WFGraph g) (hs : s ∈ g.vertexNames) (hst : s ≠ t) :
    LoopInv g h s t (initState g h s t) := by
  have hgs : ∀ v, (initState g h s t).gScore v = if v = s then 0 else ⊤ :=
    fun v => rfl
  refine ⟨⟨?_, rfl, ?_, ?_, ?_, ?_, ?_, ?_, ?_, ?_, ?_, ?_, ?_⟩, ?_, ?_, ?_⟩
  · rw [hgs]
    simp
  · intro v
    rw [hgs]
    by_cases hv : v = s
    · rw [if_pos hv]
    · rw [if_neg hv]
      exact le_top
  · intro v p hvp
    exact Option.noConfusion hvp
  · intro v p hvp
    exact Option.noConfusion hvp
  · intro v hv
    exact absurd rfl hv
  · intro v hv
    rw [hgs] at hv
    by_cases hvs : v = s
    · exact Or.inl hvs
    · rw [if_neg hvs] at hv
      exact absurd hv (lt_irrefl _)
  · intro v hv
    exact absurd rfl hv
  · intro v hv
    rw [hgs] at hv
    by_cases hvs : v = s
    · refine ⟨[s], by simp, by rw [hvs]; exact isPath_singleton hs, ?_, ?_⟩
      · rw [pathWeight, hgs, if_pos hvs]
      · intro i hi
        simp only [List.length_singleton] at hi
        have hi0 : i = 0 := by omega
        subst hi0
        show (initState g h s t).gScore ([s][0]) ≤ pathWeight g ([s].take 1)
        have hsv : ([s] : List String)[0] = s := rfl
        rw [hsv, hgs]
        simp [pathWeight]
    · rw [if_neg hvs] at hv
      exact absurd hv (lt_irrefl _)
  · intro v
    by_cases hvs : v = s
    · subst hvs
      refine Or.inr ⟨[v], fun _ => none, ?_⟩
      show (if v = v then ((h g v t v [v] fun _ => none : ℚ) : WithTop ℚ) else ⊤) =
        (if v = v then (0 : WithTop ℚ) else ⊤) + _
      simp
    · refine Or.inl ⟨?_, ?_⟩
      · show (if v = s then ((h g s t s [s] fun _ => none : ℚ) : WithTop ℚ) else ⊤) = ⊤
        rw [if_neg hvs]
      · rw [hgs, if_neg hvs]
  · intro v hv
    have hvs : v = s := by
      have : v ∈ [s] := hv
      simpa using this
    rw [hgs, if_pos hvs]
    exact WithTop.coe_lt_top 0
  · show ([s] : List String).Nodup
    simp
  · intro v hv
    have hvs : v = s := by
      have : v ∈ [s] := hv
      simpa using this
    exact hvs ▸ hs
  · -- relaxation: every closed vertex still has infinite gScore
    intro u hu v w hw
    have hus : u ≠ s := by
      intro hh
      exact hu (by simp [hh, initState])
    have hgu : (initState g h s t).gScore u = ⊤ := by
      rw [hgs, if_neg hus]
    rw [hgu, WithTop.top_add]
    exact le_top
  · intro hfin
    rw [hgs, if_neg fun hh => hst hh.symm] at hfin
    exact absurd hfin (lt_irrefl _)
  · show t ∉ ([] : List String)
    simp

theorem AStarFuel_eq_loop {fuel : ℕ} {g : AGraph} {h : HFun} {s t : String}
    (hst : s ≠ t) (hs : s ∈ g.vertexNames) (ht : t ∈ g.vertexNames) :
    AStarFuel fuel g h s t =
      (loopGo g h s t fuel (initState g h s t)).map Prod.fst := by
  unfold AStarFuel
  rw [if_neg hst, if_pos hs, if_pos ht]

/-- **C7.** For every well-formed finite graph (non-negative weights) and
every heuristic — which, as a function of the model, always terminates —
`AStar` runs to completion: there is a fuel bound past which the main
loop has returned, with either a `(trace, route)` result or the
empty-result failure (`isSome` of the fuel-indexed run). -/
theorem astar_terminates (g : AGraph) (hwf : WFGraph g) (h : HFun)
    (s t : String) :
    ∃ N, ∀ fuel, N ≤ fuel → (AStarFuel fuel g h s t).isSome := by
  by_cases hst : s = t
  · refine ⟨0, fun fuel _ => ?_⟩
    unfold AStarFuel
    rw [if_pos hst]
    rfl
  · by_cases hs : s ∈ g.vertexNames
    · by_cases ht : t ∈ g.vertexNames
      · refine ⟨loopPhi g s (initState g h s t) + 1, fun fuel hfuel => ?_⟩
        obtain ⟨r, hr⟩ := loop_term hwf hs ht hst fuel (initState g h s t)
          (init_inv hwf hs hst) (by omega)
        rw [AStarFuel_eq_loop hst hs ht, hr]
        rfl
      · refine ⟨0, fun fuel _ => ?_⟩
        unfold AStarFuel
        rw [if_neg hst, if_pos hs, if_neg ht]
        rfl
    · refine ⟨0, fun fuel _ => ?_⟩
      unfold AStarFuel
      rw [if_neg hst, if_neg hs]
      rfl

/-- Witness for `astar_terminates` at a concrete graph. -/
theorem astar_terminates_witness :
    WFGraph gCycle ∧
      ∃ N, ∀ fuel, N ≤ fuel → (AStarFuel fuel gCycle hZero "A" "C").isSome :=
  ⟨by decide, astar_terminates gCycle (by decide) hZero "A" "C"⟩

/-- **C1.** For every well-formed graph (finite, undirected, non-negative
weights), every admissible non-negative heuristic, and every distinct
start and goal vertex present in the graph and connected by some path,
the route returned by `AStar` is a path from start to goal whose total
edge weight equals the true shortest-path distance: it is a path, and its
weight is a lower bound of the weight of every path from start to goal. -/
theorem astar_optimal (g : AGraph) (h : HFun) (s t : String)
    (hwf : WFGraph g) (hs : s ∈ g.vertexNames) (ht : t ∈ g.vertexNames)
    (hst : s ≠ t) (hadm : Admissible g s t h)
    (hconn : ∃ q, IsPathFrom g s t q) :
    ∃ N, ∀ fuel, N ≤ fuel → ∃ tr rt,
      AStarFuel fuel g h s t = some (AOut.done tr rt) ∧
      IsPathFrom g s t rt ∧
      ∀ q, IsPathFrom g s t q → pathWeight g rt ≤ pathWeight g q := by
  refine ⟨loopPhi g s (initState g h s t) + 1, fun fuel hfuel => ?_⟩
  obtain ⟨⟨out, stf⟩, hr⟩ := loop_term hwf hs ht hst fuel (initState g h s t)
    (init_inv hwf hs hst) (by omega)
  rcases loop_master hwf hs ht hst fuel (initState g h s t) out stf
      (init_inv hwf hs hst) hr with
    ⟨_, hnopath⟩ | ⟨route, hout, _, _, _, hpath, hwle, hopt⟩
  · obtain ⟨q, hq⟩ := hconn
    exact absurd hq (hnopath q)
  · refine ⟨stf.trace, route, ?_, hpath, ?_⟩
    · rw [AStarFuel_eq_loop hst hs ht, hr, hout]
      rfl
    · intro q hq
      exact le_trans hwle (hopt hadm q hq)

/-- The constantly-zero heuristic is admissible on any well-formed
graph. -/
theorem admissible_hZero {g : AGraph} (s t : String) (hwf : WFGraph g) :
    Admissible g s t hZero := by
  intro v os cf
  refine ⟨le_refl 0, ?_⟩
  intro p hp
  show ((0 : ℚ) : WithTop ℚ) ≤ pathWeight g p
  rw [WithTop.coe_zero]
  exact pathWeight_nonneg hwf p

/-- The spec's concrete cycle scenario provides a path from `A` to `C`. -/
theorem isPath_ABC : IsPathFrom gCycle "A" "C" ["A", "B", "C"] := by
  refine ⟨by simp, rfl, rfl, ?_, by decide⟩
  rw [List.chain'_cons, List.chain'_cons]
  exact ⟨by decide, by decide, List.chain'_singleton _⟩

/-- Witness for `astar_optimal` on the spec's four-vertex cycle. -/
theorem astar_optimal_witness :
    WFGraph gCycle ∧ ("A" : String) ∈ gCycle.vertexNames ∧
      ("C" : String) ∈ gCycle.vertexNames ∧ ("A" : String) ≠ "C" ∧
      Admissible gCycle "A" "C" hZero ∧
      (∃ q, IsPathFrom gCycle "A" "C" q) ∧
      ∃ N, ∀ fuel, N ≤ fuel → ∃ tr rt,
        AStarFuel fuel gCycle hZero "A" "C" = some (AOut.done tr rt) ∧
        IsPathFrom gCycle "A" "C" rt ∧
        ∀ q, IsPathFrom gCycle "A" "C" q →
          pathWeight gCycle rt ≤ pathWeight gCycle q :=
  ⟨by decide, by decide, by decide, by decide,
    admissible_hZero "A" "C" (by decide), ⟨["A", "B", "C"], isPath_ABC⟩,
    astar_optimal gCycle hZero "A" "C" (by decide) (by decide) (by decide)
      (by decide) (admissible_hZero "A" "C" (by decide))
      ⟨["A", "B", "C"], isPath_ABC⟩⟩

/-- **C2.** For every well-formed graph, every heuristic, and distinct
start and goal identifiers present in the graph, `AStar` returns the pair
of two empty sequences exactly when no path connects start to goal. -/
theorem astar_empty_iff_no_path (g : AGraph) (h : HFun) (s t : String)
    (hwf : WFGraph g) (hs : s ∈ g.vertexNames) (ht : t ∈ g.vertexNames)
    (hst : s ≠ t) :
    (∀ q, ¬ IsPathFrom g s t q) ↔
      ∃ fuel, AStarFuel fuel g h s t = some (AOut.done [] []) := by
  constructor
  · intro hno
    obtain ⟨⟨out, stf⟩, hr⟩ := loop_term hwf hs ht hst
      (loopPhi g s (initState g h s t) + 1) (initState g h s t)
      (init_inv hwf hs hst) (by omega)
    rcases loop_master hwf hs ht hst _ (initState g h s t) out stf
        (init_inv hwf hs hst) hr with
      ⟨hout, _⟩ | ⟨route, hout, htrne, _, _, hpath, _, _⟩
    · refine ⟨loopPhi g s (initState g h s t) + 1, ?_⟩
      rw [AStarFuel_eq_loop hst hs ht, hr, hout]
      rfl
    · exact absurd hpath (hno route)
  · rintro ⟨fuel, hfuel⟩
    rw [AStarFuel_eq_loop hst hs ht] at hfuel
    cases hr : loopGo g h s t fuel (initState g h s t) with
    | none =>
      rw [hr] at hfuel
      exact Option.noConfusion hfuel
    | some pr =>
      obtain ⟨out, stf⟩ := pr
      rw [hr] at hfuel
      have hout : out = AOut.done [] [] := Option.some.inj hfuel
      rcases loop_master hwf hs ht hst fuel (initState g h s t) out stf
          (init_inv hwf hs hst) hr with
        ⟨_, hno⟩ | ⟨route, hout', htrne, _, _, _, _, _⟩
      · exact hno
      · rw [hout] at hout'
        have htr : stf.trace = [] := by
          have hh := congrArg (fun o => match o with
            | AOut.done tr _ => tr
            | AOut.vertexNotFound => ["x"]) hout'
          exact hh.symm
        exact absurd htr htrne

/-- Witness for `astar_empty_iff_no_path` on the graph with isolated
vertex `Z`. -/
theorem astar_empty_iff_no_path_witness :
    WFGraph gDisco ∧ ("A" : String) ∈ gDisco.vertexNames ∧
      ("Z" : String) ∈ gDisco.vertexNames ∧ ("A" : String) ≠ "Z" ∧
      ((∀ q, ¬ IsPathFrom gDisco "A" "Z" q) ↔
        ∃ fuel, AStarFuel fuel gDisco hZero "A" "Z" =
          some (AOut.done [] [])) :=
  ⟨by decide, by decide, by decide, by decide,
    astar_empty_iff_no_path gDisco hZero "A" "Z" (by decide) (by decide)
      (by decide) (by decide)⟩

/-- **C5, amended.** For every successful run of `AStar` (a run that
returns via the goal check, recognisable by its nonempty trace), the sum
of the edge weights over consecutive route pairs is at most — not always
equal to — the value of `gScore[goal]` at the moment of termination. -/
theorem astar_route_weight_le (g : AGraph) (h : HFun) (s t : String)
    (fuel : ℕ) (tr rt : List String) (gq : WithTop ℚ)
    (hwf : WFGraph g) (hs : s ∈ g.vertexNames) (ht : t ∈ g.vertexNames)
    (hst : s ≠ t)
    (hrun : runGoalScore fuel g h s t = some (AOut.done tr rt, gq))
    (htr : tr ≠ []) :
    pathWeight g rt ≤ gq := by
  unfold runGoalScore at hrun
  cases hr : loopGo g h s t fuel (initState g h s t) with
  | none =>
    rw [hr] at hrun
    exact Option.noConfusion hrun
  | some pr =>
    obtain ⟨out, stf⟩ := pr
    rw [hr] at hrun
    have hpair := Option.some.inj hrun
    have hout : out = AOut.done tr rt := congrArg Prod.fst hpair
    have hgq : stf.gScore t = gq := congrArg Prod.snd hpair
    rcases loop_master hwf hs ht hst fuel (initState g h s t) out stf
        (init_inv hwf hs hst) hr with
      ⟨hout', _⟩ | ⟨route, hout', _, _, _, _, hwle, _⟩
    · rw [hout] at hout'
      have htr' : tr = [] := by
        have hh := congrArg (fun o => match o with
          | AOut.done tr0 _ => tr0
          | AOut.vertexNotFound => ["x"]) hout'
        exact hh
      exact absurd htr' htr
    · rw [hout] at hout'
      have hrt : rt = route := by
        have hh := congrArg (fun o => match o with
          | AOut.done _ r => r
          | AOut.vertexNotFound => ["x"]) hout'
        exact hh
      rw [hrt, ← hgq]
      exact hwle

/-- Witness for `astar_route_weight_le` on the four-vertex cycle. -/
theorem astar_route_weight_le_witness :
    WFGraph gCycle ∧ ("A" : String) ∈ gCycle.vertexNames ∧
      ("C" : String) ∈ gCycle.vertexNames ∧ ("A" : String) ≠ "C" ∧
      runGoalScore 30 gCycle hZero "A" "C" =
        some (AOut.done ["A", "B", "C"] ["A", "B", "C"], ((3 : ℚ) : WithTop ℚ)) ∧
      (["A", "B", "C"] : List String) ≠ [] ∧
      pathWeight gCycle ["A", "B", "C"] ≤ ((3 : ℚ) : WithTop ℚ) :=
  ⟨by decide, by decide, by decide, by decide, by with_unfolding_all decide,
    by decide,
    astar_route_weight_le gCycle hZero "A" "C" 30 ["A", "B", "C"]
      ["A", "B", "C"] ((3 : ℚ) : WithTop ℚ) (by decide) (by decide) (by decide)
      (by decide) (by with_unfolding_all decide) (by decide)⟩

/-- **C6, amended.** On every successful run of `AStar` (one returning a
nonempty trace), the goal vertex appears exactly once in the expansion
trace, as its last element.  (The claim's first half — that the expanded
vertices' `fScore` values are non-decreasing — is refuted separately by
the counterexample run recorded for this claim.) -/
theorem astar_goal_once_last (g : AGraph) (h : HFun) (s t : String)
    (fuel : ℕ) (tr rt : List String) (hwf : WFGraph g)
    (hrun : AStarFuel fuel g h s t = some (AOut.done tr rt))
    (htr : tr ≠ []) :
    tr.getLast? = some t ∧ tr.count t = 1 := by
  by_cases hst : s = t
  · unfold AStarFuel at hrun
    rw [if_pos hst] at hrun
    have hout := Option.some.inj hrun
    have htr' : tr = [s] := by
      have hh := congrArg (fun o => match o with
        | AOut.done tr0 _ => tr0
        | AOut.vertexNotFound => ["x"]) hout
      exact hh.symm
    subst hst
    rw [htr']
    exact ⟨rfl, by simp⟩
  · by_cases hs : s ∈ g.vertexNames
    · by_cases ht : t ∈ g.vertexNames
      · rw [AStarFuel_eq_loop hst hs ht] at hrun
        cases hr : loopGo g h s t fuel (initState g h s t) with
        | none =>
          rw [hr] at hrun
          exact Option.noConfusion hrun
        | some pr =>
          obtain ⟨out, stf⟩ := pr
          rw [hr] at hrun
          have hout : out = AOut.done tr rt := Option.some.inj hrun
          rcases loop_master hwf hs ht hst fuel (initState g h s t) out stf
              (init_inv hwf hs hst) hr with
            ⟨hout', _⟩ | ⟨route, hout', htrne, hlast, hcount, _, _, _⟩
          · rw [hout] at hout'
            have htr' : tr = [] := by
              have hh := congrArg (fun o => match o with
                | AOut.done tr0 _ => tr0
                | AOut.vertexNotFound => ["x"]) hout'
              exact hh
            exact absurd htr' htr
          · rw [hout] at hout'
            have htr' : tr = stf.trace := by
              have hh := congrArg (fun o => match o with
                | AOut.done tr0 _ => tr0
                | AOut.vertexNotFound => ["x"]) hout'
              exact hh
            rw [htr']
            exact ⟨hlast, hcount⟩
      · unfold AStarFuel at hrun
        rw [if_neg hst, if_pos hs, if_neg ht] at hrun
        exact absurd (Option.some.inj hrun) (by simp)
    · unfold AStarFuel at hrun
      rw [if_neg hst, if_neg hs] at hrun
      exact absurd (Option.some.inj hrun) (by simp)

/-- Witness for `astar_goal_once_last` on the four-vertex cycle. -/
theorem astar_goal_once_last_witness :
    WFGraph gCycle ∧
      AStarFuel 30 gCycle hZero "A" "C" =
        some (AOut.done ["A", "B", "C"] ["A", "B", "C"]) ∧
      (["A", "B", "C"] : List String) ≠ [] ∧
      (["A", "B", "C"] : List String).getLast? = some "C" ∧
      (["A", "B", "C"] : List String).count "C" = 1 :=
  ⟨by decide, by with_unfolding_all decide, by decide,
    (astar_goal_once_last gCycle hZero "A" "C" 30 ["A", "B", "C"]
      ["A", "B", "C"] (by decide) (by with_unfolding_all decide)
      (by decide)).1,
    (astar_goal_once_last gCycle hZero "A" "C" 30 ["A", "B", "C"]
      ["A", "B", "C"] (by decide) (by with_unfolding_all decide)
      (by decide)).2⟩
